import Mathlib

/-!
Shallow embedding of the core of `cargo-vendor-filterer` (files `src/main.rs`,
`src/dep_kinds_filtering.rs`, `src/lib.rs`), together with theorems settling the
specification claims about it.

Modelling conventions:

* Rust strings are `String`, byte buffers are `List Nat`.
* A package directory (and, for the archive builder, a whole tree) is a flat
  association list from relative paths to file contents; `Utf8Path` operations
  (`starts_with`, `is_absolute`, component decomposition) are modelled on path
  components, matching the component-wise semantics of `camino`/`std::path`.
* External collaborators that the specification places out of scope (the TOML
  and JSON codecs, the SHA-256 digest primitive, the semver parser, the tar
  serializer and the compressors) appear as function-valued parameters; the
  logic of `main.rs` is embedded faithfully around them.
* Fallible Rust code (`Result`, `?`, `bail!`, `assert!`) becomes `Option` /
  `Except` with explicit error values.
-/

namespace VendorFilterer

/-! ## Strings and paths

String inspection is carried out on the character list underlying a `String`
(`String.data`), which is the faithful view of a UTF-8 Rust `&str` for the
operations used here (for UTF-8, byte order and code-point order coincide).

`camino::Utf8Path` semantics: `starts_with` compares whole path components,
`is_absolute` checks for a root, and empty / `.` components are skipped by the
component iterator. -/

/-- Lexicographic order on character lists; `strLt` below is the string order
used by `BTreeMap<String, _>`. -/
def charListLt : List Char → List Char → Bool
  | [], [] => false
  | [], _ :: _ => true
  | _ :: _, [] => false
  | a :: as, b :: bs => if a < b then true else if a = b then charListLt as bs else false

/-- Lexicographic string comparison (the `Ord` of Rust `String`). -/
def strLt (a b : String) : Bool :=
  charListLt a.data b.data

/-- Model of Rust `str::contains(char)`. -/
def strContainsChar (s : String) (c : Char) : Bool :=
  s.data.contains c

/-- Components of a relative UTF-8 path: split on `/`, dropping empty and `.`
components exactly as the `std::path` component iterator does. -/
def pathComponents (p : String) : List (List Char) :=
  (p.data.splitOn '/').filter (fun c => c ≠ [] && c ≠ ['.'])

/-- Model of `Utf8Path::starts_with`: component-wise path-prefix test
(`foo/bar` starts with `foo`, but `foobar` does not). -/
def pathStartsWith (p q : String) : Bool :=
  (pathComponents q).isPrefixOf (pathComponents p)

/-- Model of `Utf8Path::is_absolute` on Unix. -/
def pathIsAbsolute (p : String) : Bool :=
  ['/'].isPrefixOf p.data

/-! ## Constants from `src/lib.rs` -/

def CARGO_TOML : String := "Cargo.toml"

def CARGO_CHECKSUM : String := ".cargo-checksum.json"

def VENDOR_DEFAULT_PATH : String := "vendor"

def VENDOR_DEFAULT_PATH_TAR : String := "vendor.tar"

def VENDOR_DEFAULT_PATH_TAR_ZSTD : String := "vendor.tar.zstd"

def VENDOR_DEFAULT_PATH_TAR_GZ : String := "vendor.tar.gz"

def MANIFEST_KEY_PACKAGE : String := "package"

def UNWANTED_MANIFEST_KEYS : List String := ["bin", "example", "test", "bench"]

def UNWANTED_PACKAGE_KEYS : List String := ["links", "build"]

/-! ## TargetMatcher: `platform_matches`, `expand_one_platform`, `expand_platforms`

These are pure functions in `src/main.rs`; a parsed platform
(`type ParsedPlatform`) is the list of `-`-separated segments. -/

/-- A parsed platform triple: its `-`-separated segments. -/
abbrev ParsedPlatform := List (List Char)

/-- The parse of a platform string: `platform.split('-').collect()`. -/
def parsePlatform (platform : String) : ParsedPlatform :=
  platform.data.splitOn '-'

/-- Model of `fn platform_matches(platform: &ParsedPlatform, o: &ParsedPlatform) -> bool`:
the first argument is a concrete target's segments, the second the pattern's
segments; lengths must agree and each pattern segment must be `*` or equal. -/
def platform_matches (platform o : ParsedPlatform) : Bool :=
  if platform.length ≠ o.length then false
  else (platform.zip o).all fun tp => tp.2 == ['*'] || tp.2 == tp.1

/-- Model of `fn expand_one_platform`: collect every known target whose parsed
segments match the (wildcard-containing) pattern. -/
def expand_one_platform (platform : String) (target_list : List (String × ParsedPlatform)) :
    List String :=
  (target_list.filter (fun t => platform_matches t.2 (parsePlatform platform))).map Prod.fst

/-- Model of `fn expand_platforms`: each pattern containing a `*` is expanded
against the known target list, any other pattern passes through unchanged; the
per-pattern results are concatenated in order. -/
def expand_platforms (platforms : List String) (target_list : List (String × ParsedPlatform)) :
    List String :=
  platforms.flatMap fun platform =>
    if strContainsChar platform '*' then expand_one_platform platform target_list
    else [platform]

/-- Specification-side matching predicate, written from the spec's words: a
pattern matches a target exactly when the segment counts are identical and
every pattern segment is `*` or equal to the corresponding target segment. -/
def MatchesSpec (target pattern : ParsedPlatform) : Prop :=
  target.length = pattern.length ∧
    ∀ i, i < pattern.length → pattern.getD i [] = ['*'] ∨ pattern.getD i [] = target.getD i []

instance (target pattern : ParsedPlatform) : Decidable (MatchesSpec target pattern) := by
  unfold MatchesSpec
  exact instDecidableAnd

/-- Specification-side expansion, written from the spec's words: each pattern
with no wildcard passes through unchanged (even when absent from the known
list); each wildcard pattern yields exactly the known triples satisfying
`MatchesSpec`; the per-pattern results are concatenated. -/
def expand_platforms_spec (platforms : List String)
    (target_list : List (String × ParsedPlatform)) : List String :=
  platforms.flatMap fun platform =>
    if strContainsChar platform '*' then
      (target_list.filter (fun t => decide (MatchesSpec t.2 (parsePlatform platform)))).map
        Prod.fst
    else [platform]

/-! ## Byte buffers and package directories -/

/-- Byte buffers (Rust `[u8]`). -/
abbrev ByteSeq := List Nat

/-- A package directory: a flat map from relative file path to file contents.
Directories are implicit (a directory exists exactly when some file lives under
it), matching a `cargo vendor`-produced package, which contains no empty
directories. -/
abbrev FS := List (String × ByteSeq)

/-- Model of `std::fs::write` / `File::create` + write: truncate an existing
file or create a fresh one. -/
def fsWrite (fs : FS) (p : String) (contents : ByteSeq) : FS :=
  if fs.any (fun e => e.1 == p) then
    fs.map (fun e => if e.1 == p then (p, contents) else e)
  else fs ++ [(p, contents)]

/-- Model of `symlink_metadata(path).is_ok()` in our file-map view: the path
names an existing file, or an existing directory (some file lives under it). -/
def pathExists (p : String) (fs : FS) : Bool :=
  fs.any (fun e => pathStartsWith e.1 p)

/-- Model of `remove_file` / `remove_dir_all` at `p`: drop the file at `p` and
every file below it. -/
def removePath (p : String) (fs : FS) : FS :=
  fs.filter (fun e => !(pathStartsWith e.1 p))

/-- A path survives a set of exclude patterns when no pattern is a
component-prefix of it (the retention predicate of the checksum rewrite). -/
def keepsPath (excludes : List String) (k : String) : Bool :=
  !(excludes.any (fun ex => pathStartsWith k ex))

/-- The files of a package directory surviving all exclude patterns. -/
def pruneSurvivors (excludes : List String) (fs : FS) : FS :=
  fs.filter (fun e => keepsPath excludes e.1)

/-! ## `CargoChecksums` (the `.cargo-checksum.json` contents) -/

/-- Model of `struct CargoChecksums { files: BTreeMap<String, String>, package: Option<String> }`. -/
structure CargoChecksums where
  files : List (String × String)
  package : Option String
  deriving Repr, DecidableEq, Inhabited

/-- Model of `BTreeMap::insert` on a sorted association list. -/
def btreeInsert (k v : String) : List (String × String) → List (String × String)
  | [] => [(k, v)]
  | (k', v') :: rest =>
    if strLt k k' then (k, v) :: (k', v') :: rest
    else if k = k' then (k, v) :: rest
    else (k', v') :: btreeInsert k v rest

/-! ## TOML values and `filter_manifest` -/

/-- A TOML value: a table, or any non-table value (whose structure
`filter_manifest` never inspects). -/
inductive TomlValue where
  | table (entries : List (String × TomlValue))
  | scalar (raw : String)

/-- Model of `Table::remove` for each key in `keys`. -/
def tableRemoveKeys (keys : List String) (t : List (String × TomlValue)) :
    List (String × TomlValue) :=
  t.filter (fun e => !(keys.contains e.1))

/-- The `[package]`-section cleanup inside `filter_manifest`: strip
`UNWANTED_PACKAGE_KEYS` when the value is a table. -/
def filterPackageTable : TomlValue → TomlValue
  | .table pt => .table (tableRemoveKeys UNWANTED_PACKAGE_KEYS pt)
  | v => v

/-- Model of `fn filter_manifest`: on a table, remove the unwanted top-level
keys and clean the `package` sub-table; leave any other value unchanged. -/
def filter_manifest : TomlValue → TomlValue
  | .table t =>
    .table ((tableRemoveKeys UNWANTED_MANIFEST_KEYS t).map
      (fun e => if e.1 = MANIFEST_KEY_PACKAGE then (e.1, filterPackageTable e.2) else e))
  | v => v

/-! ## External codecs

The spec places these out of scope ("a generic cryptographic digest
primitive" and serialization plumbing are external collaborators), so they are
parameters of the embedding. -/

structure ExternalCodecs where
  parseToml : ByteSeq → Option TomlValue
  serializeToml : TomlValue → ByteSeq
  parseChecksums : ByteSeq → Option CargoChecksums
  serializeChecksums : CargoChecksums → ByteSeq
  sha256_hexdigest : ByteSeq → String

/-! ## StubReplacer: `replace_with_stub` -/

/-- Model of the `writef` closure in `replace_with_stub`: write the file and
record its digest in the checksum file map. -/
def writef (ext : ExternalCodecs) (st : FS × CargoChecksums) (target : String)
    (contents : ByteSeq) : FS × CargoChecksums :=
  (fsWrite st.1 target contents,
   { st.2 with files := btreeInsert target (ext.sha256_hexdigest contents) st.2.files })

/-- Model of `fn replace_with_stub`: read and filter `Cargo.toml`, read the
checksum file, wipe the directory, clear the per-file digest map (keeping the
aggregate `package` digest), write the filtered manifest and an empty
`src/lib.rs` recording each digest, and finally write the new checksum file.
Returns the new directory contents together with the checksum structure that
was serialized into it; `none` models an error (`?` propagation). -/
def replace_with_stub (ext : ExternalCodecs) (fs : FS) : Option (FS × CargoChecksums) := do
  let cargo_toml_bytes ← fs.lookup CARGO_TOML
  let cargo_toml_data ← ext.parseToml cargo_toml_bytes
  let cargo_toml_data := filter_manifest cargo_toml_data
  let checksums_bytes ← fs.lookup CARGO_CHECKSUM
  let checksums ← ext.parseChecksums checksums_bytes
  let checksums := { checksums with files := [] }
  let st := writef ext ([], checksums) CARGO_TOML (ext.serializeToml cargo_toml_data)
  let st := writef ext st "src/lib.rs" []
  some (fsWrite st.1 CARGO_CHECKSUM (ext.serializeChecksums st.2), st.2)

/-! ## PathPruner: `process_excludes` -/

inductive PruneError where
  | absolutePath (exclude : String)
  | ioError
  | integrityViolation
  deriving Repr, DecidableEq

/-- Loop state of the exclude loop in `process_excludes`. -/
structure PruneState where
  fs : FS
  matched : Bool
  warnings : List String
  deriving Repr, DecidableEq

/-- One iteration of the exclude loop: reject absolute patterns, remove a
matching file/directory (recording `matched`), or warn. -/
def processExcludeStep (st : PruneState) (exclude : String) : Except PruneError PruneState :=
  if pathIsAbsolute exclude then .error (.absolutePath exclude)
  else if pathExists exclude st.fs then
    .ok { st with fs := removePath exclude st.fs, matched := true }
  else
    .ok { st with warnings := st.warnings ++ [exclude] }

/-- Model of `fn process_excludes`: apply each exclude in turn; if anything
matched, re-read the checksum file, drop every entry whose path starts with
any exclude, abort if the entry count did not shrink (`assert_ne!`), and
rewrite the checksum file. Returns the final directory, the rewritten checksum
structure when a rewrite happened, and the emitted warnings. -/
def process_excludes (ext : ExternalCodecs) (fs : FS) (excludes : List String) :
    Except PruneError (FS × Option CargoChecksums × List String) := do
  let st ← excludes.foldlM processExcludeStep ⟨fs, false, []⟩
  if st.matched then
    match st.fs.lookup CARGO_CHECKSUM with
    | none => .error .ioError
    | some cdata =>
      match ext.parseChecksums cdata with
      | none => .error .ioError
      | some checksums =>
        let retained := checksums.files.filter (fun e => keepsPath excludes e.1)
        if checksums.files.length = retained.length then .error .integrityViolation
        else
          let checksums' := { checksums with files := retained }
          .ok (fsWrite st.fs CARGO_CHECKSUM (ext.serializeChecksums checksums'),
               some checksums', st.warnings)
  else
    .ok (st.fs, none, st.warnings)

/-- The `ChecksumManifest` invariant of the spec's data model: every surviving
content file (the checksum file itself records, and so never lists, itself)
has exactly one digest entry, and no stale entries remain. -/
def ChecksumInvariant (fs : FS) (cks : CargoChecksums) : Prop :=
  (cks.files.map Prod.fst).Nodup ∧
    ∀ p : String, p ≠ CARGO_CHECKSUM →
      ((fs.lookup p).isSome ↔ (cks.files.lookup p).isSome)

/-! ## DirectoryReconciler: `delete_unreferenced_packages` -/

/-- Observable actions of the reconciler, used to state which collaborators it
invokes on which entries. -/
inductive VendorEvent where
  | stubbed (name : String)
  | pruned (name : String) (excludes : List String)
  deriving Repr, DecidableEq

inductive ReconcileError where
  | stubFailed (name : String)
  | pruneFailed (name : String) (e : PruneError)
  deriving Repr, DecidableEq

/-- The body of the entry loop in `delete_unreferenced_packages`: stub the
entry when its name is not a directory key, then apply the exact-name exclude
set and the wildcard (`*`) exclude set, each as its own `process_excludes`
pass. -/
def reconcileEntry (ext : ExternalCodecs) (package_filenames : List String)
    (excludes : List (String × List String)) (entry : String × FS) :
    Except ReconcileError (FS × List VendorEvent) := do
  let name := entry.1
  let (fs1, ev1) ←
    if package_filenames.contains name then pure (entry.2, ([] : List VendorEvent))
    else
      match replace_with_stub ext entry.2 with
      | some (fs', _) => pure (fs', [VendorEvent.stubbed name])
      | none => throw (ReconcileError.stubFailed name)
  let (fs2, ev2) ←
    match excludes.lookup name with
    | some crate_excludes =>
      match process_excludes ext fs1 crate_excludes with
      | .ok (fs', _, _) => pure (fs', [VendorEvent.pruned name crate_excludes])
      | .error e => throw (ReconcileError.pruneFailed name e)
    | none => pure (fs1, ([] : List VendorEvent))
  let (fs3, ev3) ←
    match excludes.lookup "*" with
    | some generic_excludes =>
      match process_excludes ext fs2 generic_excludes with
      | .ok (fs', _, _) => pure (fs', [VendorEvent.pruned name generic_excludes])
      | .error e => throw (ReconcileError.pruneFailed name e)
    | none => pure (fs2, ([] : List VendorEvent))
  return (fs3, ev1 ++ ev2 ++ ev3)

/-- Model of `fn delete_unreferenced_packages`: the top-level entries are
snapshotted up front (here: the input list) and processed in order; the result
is the mutated directory together with the trace of stub/prune invocations. -/
def delete_unreferenced_packages (ext : ExternalCodecs) (dir : List (String × FS))
    (package_filenames : List String) (excludes : List (String × List String)) :
    Except ReconcileError (List (String × FS) × List VendorEvent) := do
  match dir with
  | [] => return ([], [])
  | entry :: rest =>
    let (fs', evs) ← reconcileEntry ext package_filenames excludes entry
    let (rest', evs') ← delete_unreferenced_packages ext rest package_filenames excludes
    return ((entry.1, fs') :: rest', evs ++ evs')

/-- The per-entry invocation pattern of the reconciler, stated directly: an
entry not in the key map is stubbed; then the exact-name exclude set and the
wildcard exclude set are each applied as their own PathPruner pass — whether
or not the entry is in the key map. -/
def reconcileEvents (package_filenames : List String) (excludes : List (String × List String))
    (name : String) : List VendorEvent :=
  (if package_filenames.contains name then [] else [VendorEvent.stubbed name]) ++
    (match excludes.lookup name with
     | some crate_excludes => [VendorEvent.pruned name crate_excludes]
     | none => []) ++
    (match excludes.lookup "*" with
     | some generic_excludes => [VendorEvent.pruned name generic_excludes]
     | none => [])

/-! ## VersionReconciler: the `package_filenames` computation in `run` -/

/-- The slice of `cargo_metadata::Package` the reconciler uses. Versions are
modelled by a linearly ordered stand-in (`Nat`) for `semver::Version`, package
identities by an abstract `Nat` id. -/
structure Pkg where
  name : String
  version : Nat
  id : Nat
  deriving Repr, DecidableEq

/-- Model of `fn package_versioned_filename`: `format!("{}-{}", p.name, p.version)`. -/
def package_versioned_filename (p : Pkg) : String :=
  p.name ++ "-" ++ toString p.version

/-- Insertion step of a stable descending-by-version sort. -/
def insertDescByVersion (p : Pkg) : List Pkg → List Pkg
  | [] => [p]
  | q :: rest =>
    if q.version ≤ p.version then p :: q :: rest else q :: insertDescByVersion p rest

/-- Model of `pkgs.sort_by(|a, b| b.version.cmp(&a.version))`: a stable sort,
greater version first. -/
def sort_by_version_desc (l : List Pkg) : List Pkg :=
  l.foldr insertDescByVersion []

/-- Model of the `package_filenames` loop in `run` (src/main.rs:890-905): the
groups of `pkgs_by_name` come from the full package universe; within a group
(sorted descending) the first member gets the bare name and every other member
the versioned name, in both cases only when the member is in the filtered
(included) package set. -/
def compute_package_filenames (pkgs_by_name : List (String × List Pkg))
    (included : List Nat) : List (String × Pkg) :=
  pkgs_by_name.flatMap fun g =>
    match sort_by_version_desc g.2 with
    | [] => []
    | first :: rest =>
      (if included.contains first.id then [(g.1, first)] else []) ++
        (rest.filter (fun p => included.contains p.id)).map
          (fun p => (package_versioned_filename p, p))

/-- Modelled from the spec: the "always use versioned directories" policy
(`--versioned-dirs`). The constant `VERSIONED_DIRS` is declared in
`src/lib.rs` and the policy is exercised by the test suite, but the code
handling it is absent from `src/main.rs` in this tree. Per the spec, when the
policy is active every included package — regardless of group size — is
assigned `name-version`. -/
def compute_package_filenames_versioned (pkgs_by_name : List (String × List Pkg))
    (included : List Nat) : List (String × Pkg) :=
  pkgs_by_name.flatMap fun g =>
    (g.2.filter (fun p => included.contains p.id)).map
      (fun p => (package_versioned_filename p, p))

/-- The claim's reading, written from the spec's words (§4.4): group the
*inclusion set* by package name, sort each group descending, give the highest
member the bare name and the rest `name-version`. -/
def package_filenames_spec_grouping (pkgs_by_name : List (String × List Pkg))
    (included : List Nat) : List (String × Pkg) :=
  pkgs_by_name.flatMap fun g =>
    match sort_by_version_desc (g.2.filter (fun p => included.contains p.id)) with
    | [] => []
    | first :: rest =>
      (g.1, first) :: rest.map (fun p => (package_versioned_filename p, p))

/-! ## InclusionResolver boundary: `cargo tree` output parsing
(`get_required_packages` in src/dep_kinds_filtering.rs) -/

/-- Substring containment, modelling Rust `str::contains(&str)` on a token. -/
def containsSubstr (hay needle : List Char) : Bool :=
  (List.range (hay.length + 1)).any fun i => needle.isPrefixOf (hay.drop i)

/-- The byte length of a token (Rust `str::len` counts UTF-8 bytes). -/
def utf8Len (s : List Char) : Nat :=
  (s.map Char.utf8Size).sum

/-- Structured forms of the three `bail!`/`context` errors of the parsing
loop; the Rust messages are formatted from exactly these data (tokens are
kept as character lists). -/
inductive TreeParseError where
  | invalidOutput (line : List Char)
  | invalidVersion (raw : List Char)
  | cannotParseVersion (version : List Char) (package : List Char)
  deriving Repr, DecidableEq

/-- Model of one iteration of the line loop in `get_required_packages`
(src/dep_kinds_filtering.rs): split on spaces; fewer than two tokens is a hard
error; a second token shorter than 5 bytes or containing `feature` is skipped;
otherwise the literal `v` is stripped (`strip_prefix('v')`, itself an error
when absent) and the remainder handed to the (external) semver parser, whose
failure is a hard error naming the package and the version text. Versions are
a linearly ordered stand-in (`Nat`). -/
def parse_tree_line (parse_version : List Char → Option Nat) (line : List Char) :
    Except TreeParseError (Option (List Char × Nat)) :=
  match line.splitOn ' ' with
  | package :: version :: _ =>
    if utf8Len version < 5 || containsSubstr version "feature".data then .ok none
    else
      match version with
      | 'v' :: rest =>
        match parse_version rest with
        | some sv => .ok (some (package, sv))
        | none => .error (.cannotParseVersion rest package)
      | _ => .error (.invalidVersion version)
  | _ => .error (.invalidOutput line)

/-- Model of `HashSet::insert` (observed as a duplicate-free list). -/
def hashSetInsert (x : List Char × Nat) (s : List (List Char × Nat)) :
    List (List Char × Nat) :=
  if s.contains x then s else s ++ [x]

/-- Processing of one line inside the collection loop: parse it, then record
the (name, version) pair unless the line was skipped. -/
def collect_tree_line (parse_version : List Char → Option Nat)
    (acc : List (List Char × Nat)) (line : List Char) :
    Except TreeParseError (List (List Char × Nat)) := do
  match ← parse_tree_line parse_version line with
  | some pv => pure (hashSetInsert pv acc)
  | none => pure acc

/-- Model of the collection loop of `get_required_packages` over the
line-oriented outputs of the edge-listing collaborator (one list of lines per
manifest): any line error aborts the whole run. -/
def get_required_packages (parse_version : List Char → Option Nat)
    (outputs : List (List (List Char))) :
    Except TreeParseError (List (List Char × Nat)) :=
  outputs.foldlM (fun acc lines =>
    lines.foldlM (collect_tree_line parse_version) acc) ([] : List (List Char × Nat))

/-- The per-line contract stated by claim C6, over the embedded parser: a line
whose second token is shorter than 5 bytes or contains `feature` is skipped
(no error, no entry); otherwise the `v` prefix is stripped and the remainder
parsed, a parse failure being a structured hard error carrying the offending
package and the version text (and a missing `v` prefix likewise a hard
error); and any line error makes the whole collection run fail. -/
def TreeLineSpec (parse_version : List Char → Option Nat)
    (line package version : List Char) : Prop :=
  ((utf8Len version < 5 ∨ containsSubstr version "feature".data = true) →
      parse_tree_line parse_version line = .ok none) ∧
    (5 ≤ utf8Len version → containsSubstr version "feature".data = false →
      (∀ v0, version = 'v' :: v0 →
        (∀ sv, parse_version v0 = some sv →
            parse_tree_line parse_version line = .ok (some (package, sv))) ∧
          (parse_version v0 = none →
            parse_tree_line parse_version line = .error (.cannotParseVersion v0 package))) ∧
      ((∀ v0, version ≠ 'v' :: v0) →
        parse_tree_line parse_version line = .error (.invalidVersion version))) ∧
    (∀ (outputs : List (List (List Char))) (lines : List (List Char)),
      lines ∈ outputs → line ∈ lines →
      ∀ e, parse_tree_line parse_version line = .error e →
        ∃ e', get_required_packages parse_version outputs = .error e')

/-! ## ArchiveBuilder: `generate_tar_from`

The directory tree is viewed flatly: a list of (path components, node) pairs
in arbitrary filesystem enumeration order. `walkdir` with
`sort_by_file_name()` performs a depth-first traversal with siblings sorted by
file name, which on this flat view is exactly sorting the entries by
component-wise lexicographic path order. The tar container format and the
compressors are external, so they appear as codec parameters. -/

inductive FsNode where
  | file (content : ByteSeq)
  | directory
  | symlink (target : String)
  | special
  deriving Repr, DecidableEq

/-- A directory tree, flattened: path components (relative to the source
directory; `[]` is the source directory itself) and the node found there. -/
abbrev DirTree := List (List String × FsNode)

inductive TarEntryData where
  | dirEntry
  | fileEntry (content : ByteSeq)
  | linkEntry (target : String)
  deriving Repr, DecidableEq

/-- One archive entry as handed to the tar serializer: the header fields set
by `generate_tar_from` plus the payload. -/
structure TarEntry where
  path : String
  mtime : Nat
  uid : Nat
  gid : Nat
  data : TarEntryData
  deriving Repr, DecidableEq

/-- Lexicographic order on component paths, comparing components as strings.
This is the traversal order of a sorted depth-first walk: a directory comes
right before its contents, and siblings are ordered by file name. -/
def pathKeyLt : List String → List String → Bool
  | [], [] => false
  | [], _ :: _ => true
  | _ :: _, [] => false
  | a :: as, b :: bs => if strLt a b then true else if a = b then pathKeyLt as bs else false

def pathKeyLe (a b : List String) : Bool :=
  pathKeyLt a b || a == b

/-- Insertion step of the path-ordered sort (lexicographic on components). -/
def insertByPath (e : List String × FsNode) : DirTree → DirTree
  | [] => [e]
  | f :: rest => if pathKeyLe e.1 f.1 then e :: f :: rest else f :: insertByPath e rest

/-- Model of `walkdir::WalkDir::new(srcdir).sort_by_file_name()` on the flat
view: entries ordered by component-wise lexicographic path order (depth-first,
siblings by file name). -/
def sortByPath (l : DirTree) : DirTree :=
  l.foldr insertByPath []

/-- The archive-internal path: `Utf8Path::new("./").join(prefix.join(subpath))`. -/
def renderTarPath (pfx rel : List String) : String :=
  "./" ++ String.intercalate "/" (pfx ++ rel)

/-- Header construction for one entry: `HeaderMode::Deterministic`, then
`set_mtime(timestamp)`, `set_uid(0)`, `set_gid(0)`; unsupported special files
are skipped with a warning. -/
def tarEntryFor (timestamp : Nat) (pfx : List String) (e : List String × FsNode) :
    Option TarEntry :=
  match e.2 with
  | .directory => some ⟨renderTarPath pfx e.1, timestamp, 0, 0, .dirEntry⟩
  | .file c => some ⟨renderTarPath pfx e.1, timestamp, 0, 0, .fileEntry c⟩
  | .symlink t => some ⟨renderTarPath pfx e.1, timestamp, 0, 0, .linkEntry t⟩
  | .special => none

/-- The fixed gzip header timestamp (`const GZIP_MTIME: u32 = 0`). -/
def GZIP_MTIME : Nat := 0

/-- The fixed gzip compression level (`const GZIP_COMPRESSION: u32 = 6`). -/
def GZIP_COMPRESSION : Nat := 6

inductive Compression where
  | nocomp
  | gzip
  | zstd
  deriving Repr, DecidableEq

/-- External byte-level codecs: the tar container serializer (the `tar`
crate), the gzip encoder (`flate2`, parameterized by its embedded header
timestamp and compression level) and the external `zstd` subprocess. -/
structure ArchiveCodecs where
  tarSerialize : List TarEntry → ByteSeq
  gzipCompress : Nat → Nat → ByteSeq → ByteSeq
  zstdCompress : ByteSeq → ByteSeq

/-- The entry sequence appended to the tar builder, in visit order. -/
def walk_entries (timestamp : Nat) (pfx : List String) (tree : DirTree) : List TarEntry :=
  (sortByPath tree).filterMap (tarEntryFor timestamp pfx)

/-- Model of `fn generate_tar_from`: serialize the visited entries and apply
the selected encoding. The shared timestamp (from `SOURCE_DATE_EPOCH` or the
version-control log) is an input. -/
def generate_tar_from (ac : ArchiveCodecs) (compress : Compression) (timestamp : Nat)
    (pfx : List String) (srcdir : DirTree) : ByteSeq :=
  let tarBytes := ac.tarSerialize (walk_entries timestamp pfx srcdir)
  match compress with
  | .nocomp => tarBytes
  | .gzip => ac.gzipCompress GZIP_MTIME GZIP_COMPRESSION tarBytes
  | .zstd => ac.zstdCompress tarBytes

/-! ## The `run` pipeline around the output path (src/main.rs:744-938)

Only the control flow that decides claims C9 and C10 is modelled: default
paths, the extant-directory check, the external `cargo vendor` call, the
filtering stage, and the final format dispatch. Stage outcomes are abstract
booleans; the trace records which stages ran and what was written. -/

inductive OutputTarget where
  | dir
  | tar
  | tarGzip
  | tarZstd
  deriving Repr, DecidableEq

/-- The default output path for each format (`VENDOR_DEFAULT_PATH*`). -/
def default_output_path : OutputTarget → String
  | .dir => VENDOR_DEFAULT_PATH
  | .tar => VENDOR_DEFAULT_PATH_TAR
  | .tarGzip => VENDOR_DEFAULT_PATH_TAR_GZ
  | .tarZstd => VENDOR_DEFAULT_PATH_TAR_ZSTD

inductive RunEvent where
  | ranCargoVendor (outputDir : String)
  | filteredPackages
  | wroteArchive (dest : String)
  deriving Repr, DecidableEq

inductive RunError where
  | outputConflict (dir : String)
  | vendorFailed
  | filterFailed
  | prefixWithNonTarFormat
  deriving Repr, DecidableEq

structure RunInputs where
  format : OutputTarget
  pathArg : Option String
  prefixArg : Option String
  existingPaths : List String
  tempdirPath : String
  vendorSucceeds : Bool
  filterSucceeds : Bool
  deriving Repr, DecidableEq

/-- The run's final output path (`args.path` or the per-format default). -/
def runFinalOutputPath (i : RunInputs) : String :=
  i.pathArg.getD (default_output_path i.format)

/-- The directory `cargo vendor` writes into: the final path for the directory
format, a fresh `vendor` directory inside the temporary directory for the tar
formats. -/
def runOutputDir (i : RunInputs) : String :=
  match i.format with
  | .dir => runFinalOutputPath i
  | _ => i.tempdirPath ++ "/vendor"

/-- Model of `fn run` (the Unix build, where every compression is supported):
events that happened paired with the error that stopped the run, if any. -/
def run (i : RunInputs) : List RunEvent × Option RunError :=
  let final_output_path := runFinalOutputPath i
  let output_dir := runOutputDir i
  if i.existingPaths.contains output_dir then
    ([], some (.outputConflict output_dir))
  else
    let ev1 := [RunEvent.ranCargoVendor output_dir]
    if !i.vendorSucceeds then (ev1, some .vendorFailed)
    else
      let ev2 := ev1 ++ [RunEvent.filteredPackages]
      if !i.filterSucceeds then (ev2, some .filterFailed)
      else
        match i.format with
        | .dir =>
          if i.prefixArg.isSome then (ev2, some .prefixWithNonTarFormat)
          else (ev2, none)
        | _ => (ev2 ++ [RunEvent.wroteArchive final_output_path], none)

/-! ## Concrete codec instances used by counterexamples and witnesses -/

/-- A trivial instantiation of the external codecs (the claims under test are
codec-independent, so any concrete choice will do). -/
def testCodecs : ExternalCodecs where
  parseToml := fun _ => some (.table [])
  serializeToml := fun _ => []
  parseChecksums := fun _ => some ⟨[("src/lib.rs", "d0")], none⟩
  serializeChecksums := fun _ => []
  sha256_hexdigest := fun _ => "d1"

/-- A tiny concrete package directory for exercising `replace_with_stub`. -/
def stubInputFS : FS := [(CARGO_TOML, []), (CARGO_CHECKSUM, [])]

/-- The directory `replace_with_stub` produces from `stubInputFS` under
`testCodecs`. -/
def stubOutputFS : FS := [(CARGO_TOML, []), ("src/lib.rs", []), (CARGO_CHECKSUM, [])]

/-- The checksum structure `replace_with_stub` writes for `stubInputFS` under
`testCodecs`. -/
def stubOutputCks : CargoChecksums := ⟨[(CARGO_TOML, "d1"), ("src/lib.rs", "d1")], none⟩

/-- A pruned-invariant package: one source file plus the checksum file,
matching what `testCodecs.parseChecksums` reports. -/
def prunedPkgFS : FS := [("src/lib.rs", []), (CARGO_CHECKSUM, [])]

/-- The checksum structure `testCodecs.parseChecksums` returns. -/
def pkgCks : CargoChecksums := ⟨[("src/lib.rs", "d0")], none⟩

/-- A small directory tree whose sorted visit order is not full-path
lexicographic on the rendered path strings: directory `foo` with a file
inside, next to a file `foo-1.2`. -/
def sampleTree : DirTree :=
  [([], .directory), (["foo"], .directory), (["foo", "x"], .file []),
    (["foo-1.2"], .file [])]

/-- `sampleTree` as presented by a different filesystem enumeration order. -/
def sampleTreeShuffled : DirTree :=
  [(["foo-1.2"], .file []), (["foo", "x"], .file []), ([], .directory),
    (["foo"], .directory)]

/-- Trivial archive codec instantiation for witnesses. -/
def testArchiveCodecs : ArchiveCodecs where
  tarSerialize := fun es => [es.length]
  gzipCompress := fun m l bs => m :: l :: bs
  zstdCompress := fun bs => bs

/-- A tar-format run whose destination archive already exists. -/
def runTarOverExisting : RunInputs where
  format := .tar
  pathArg := some "vendor.tar"
  prefixArg := none
  existingPaths := ["vendor.tar"]
  tempdirPath := "tmp.XYZ"
  vendorSucceeds := true
  filterSucceeds := true

/-- A directory-format run whose destination directory already exists. -/
def runDirConflict : RunInputs where
  format := .dir
  pathArg := none
  prefixArg := none
  existingPaths := ["vendor"]
  tempdirPath := "tmp.A"
  vendorSucceeds := true
  filterSucceeds := true

/-- A gzip-tar run whose destination archive already exists. -/
def runGzOverExisting : RunInputs where
  format := .tarGzip
  pathArg := none
  prefixArg := none
  existingPaths := ["vendor.tar.gz"]
  tempdirPath := "tmp.A"
  vendorSucceeds := true
  filterSucceeds := true

/-- A directory-format run that supplies an archive path-prefix. -/
def runDirWithPfx : RunInputs where
  format := .dir
  pathArg := none
  prefixArg := some "vendor"
  existingPaths := []
  tempdirPath := "tmp.A"
  vendorSucceeds := true
  filterSucceeds := true

theorem platform_matches_cons_cons (t q : List Char) (ts qs : ParsedPlatform) :
    platform_matches (t :: ts) (q :: qs) =
      (decide (ts.length = qs.length) && (q == ['*'] || q == t) && platform_matches ts qs) := by
  by_cases hlen : ts.length = qs.length
  · simp [platform_matches, hlen]
  · have h1 : ts.length + 1 ≠ qs.length + 1 := by omega
    simp [platform_matches, h1, hlen]

theorem matchesSpec_cons (t q : List Char) (ts qs : ParsedPlatform) :
    MatchesSpec (t :: ts) (q :: qs) ↔ (q = ['*'] ∨ q = t) ∧ MatchesSpec ts qs := by
  constructor
  · rintro ⟨hlen, hseg⟩
    have h0 := hseg 0 (by simp)
    refine ⟨by simpa using h0, by simpa using hlen, ?_⟩
    intro i hi
    simpa using hseg (i + 1) (by simpa using Nat.succ_lt_succ hi)
  · rintro ⟨h0, hlen, hseg⟩
    refine ⟨by simpa using hlen, ?_⟩
    intro i hi
    cases i with
    | zero => simpa using h0
    | succ j => simpa using hseg j (by simpa using Nat.lt_of_succ_lt_succ hi)

/-- The executable matcher agrees with the specification-side predicate. -/
theorem platform_matches_iff (target pattern : ParsedPlatform) :
    platform_matches target pattern = true ↔ MatchesSpec target pattern := by
  induction target generalizing pattern with
  | nil =>
    cases pattern with
    | nil =>
      constructor
      · intro _; exact ⟨rfl, by intro i hi; simp at hi⟩
      · intro _; simp [platform_matches]
    | cons q qs =>
      constructor
      · intro h
        exfalso
        simp [platform_matches] at h
      · rintro ⟨hlen, _⟩
        exfalso
        simp at hlen
  | cons t ts ih =>
    cases pattern with
    | nil =>
      constructor
      · intro h
        exfalso
        simp [platform_matches] at h
      · rintro ⟨hlen, _⟩
        exfalso
        simp at hlen
    | cons q qs =>
      rw [platform_matches_cons_cons]
      rw [matchesSpec_cons]
      constructor
      · intro h
        simp only [Bool.and_eq_true, Bool.or_eq_true, beq_iff_eq, decide_eq_true_eq] at h
        exact ⟨h.1.2, (ih qs).mp h.2⟩
      · rintro ⟨h0, hts⟩
        have hlen : ts.length = qs.length := hts.1
        simp only [Bool.and_eq_true, Bool.or_eq_true, beq_iff_eq, decide_eq_true_eq]
        exact ⟨⟨hlen, h0⟩, (ih qs).mpr hts⟩


theorem platform_matches_eq_decide (t p : ParsedPlatform) :
    platform_matches t p = decide (MatchesSpec t p) := by
  by_cases h : MatchesSpec t p
  · simp [h, (platform_matches_iff t p).mpr h]
  · have hb : platform_matches t p = false := by
      cases hbv : platform_matches t p
      · rfl
      · exact absurd ((platform_matches_iff t p).mp hbv) h
    simp [h, hb]

/-- C3, amendment: `expand_platforms` agrees with the specification-side
expansion — each non-wildcard pattern passes through unchanged (even when
absent from the known-triple list), each wildcard pattern yields exactly the
known triples with identical segment count whose segments equal the pattern's
wherever the pattern segment is not `*`, and the per-pattern results are
concatenated in order (no deduplication is performed, so the combined result
may contain duplicates). -/
theorem C3_expand_platforms_amended (platforms : List String)
    (target_list : List (String × ParsedPlatform)) :
    expand_platforms platforms target_list = expand_platforms_spec platforms target_list := by
  unfold expand_platforms expand_platforms_spec
  apply List.flatMap_congr
  intro platform _
  by_cases hw : strContainsChar platform '*'
  · simp only [hw, if_pos, expand_one_platform]
    congr 1
    apply List.filter_congr
    intro t _
    exact platform_matches_eq_decide t.2 (parsePlatform platform)
  · simp [hw]

/-- C3, counterexample: the claim's "the combined result contains no
duplicates" fails — a wildcard pattern together with a literal pattern that it
also covers produces the same triple twice. -/
theorem C3_counterexample_duplicates :
    ¬ (expand_platforms ["*-unknown-linux-gnu", "x86_64-unknown-linux-gnu"]
        [("x86_64-unknown-linux-gnu", parsePlatform "x86_64-unknown-linux-gnu")]).Nodup := by
  decide

/-! ## VersionReconciler lemmas -/

theorem insertDescByVersion_perm (p : Pkg) (l : List Pkg) :
    (insertDescByVersion p l).Perm (p :: l) := by
  induction l with
  | nil => exact List.Perm.refl _
  | cons q rest ih =>
    by_cases h : q.version ≤ p.version
    · simp [insertDescByVersion, h]
    · simp only [insertDescByVersion, if_neg h]
      exact (ih.cons q).trans (List.Perm.swap p q rest)

theorem insertDescByVersion_sorted (p : Pkg) (l : List Pkg)
    (h : l.Pairwise (fun a b => b.version ≤ a.version)) :
    (insertDescByVersion p l).Pairwise (fun a b => b.version ≤ a.version) := by
  induction l with
  | nil => simp [insertDescByVersion]
  | cons q rest ih =>
    rcases List.pairwise_cons.mp h with ⟨hq, hrest⟩
    by_cases hle : q.version ≤ p.version
    · simp only [insertDescByVersion, if_pos hle]
      refine List.pairwise_cons.mpr ⟨?_, h⟩
      intro b hb
      rcases List.mem_cons.mp hb with hb | hb
      · exact hb ▸ hle
      · exact (hq b hb).trans hle
    · simp only [insertDescByVersion, if_neg hle]
      refine List.pairwise_cons.mpr ⟨?_, ih hrest⟩
      intro b hb
      have hb' : b ∈ p :: rest := (insertDescByVersion_perm p rest).subset hb
      rcases List.mem_cons.mp hb' with hb' | hb'
      · subst hb'
        omega
      · exact hq b hb'

theorem sort_by_version_desc_perm (l : List Pkg) :
    (sort_by_version_desc l).Perm l := by
  induction l with
  | nil => exact List.Perm.refl _
  | cons p rest ih =>
    exact (insertDescByVersion_perm p (sort_by_version_desc rest)).trans (ih.cons p)

theorem sort_by_version_desc_sorted (l : List Pkg) :
    (sort_by_version_desc l).Pairwise (fun a b => b.version ≤ a.version) := by
  induction l with
  | nil => simp [sort_by_version_desc]
  | cons p rest ih => exact insertDescByVersion_sorted p _ ih

theorem sort_by_version_desc_head_max (l : List Pkg) (h : l ≠ []) :
    ∃ first rest, sort_by_version_desc l = first :: rest ∧ first ∈ l ∧
      ∀ p ∈ l, p.version ≤ first.version := by
  cases hs : sort_by_version_desc l with
  | nil =>
    exfalso
    have := (sort_by_version_desc_perm l).length_eq
    rw [hs] at this
    exact h (List.length_eq_zero.mp this.symm)
  | cons first rest =>
    refine ⟨first, rest, rfl, ?_, ?_⟩
    · have : first ∈ sort_by_version_desc l := by simp [hs]
      exact (sort_by_version_desc_perm l).subset this
    · intro p hp
      have hp' : p ∈ sort_by_version_desc l := (sort_by_version_desc_perm l).mem_iff.mpr hp
      rw [hs] at hp'
      rcases List.mem_cons.mp hp' with hp' | hp'
      · exact hp' ▸ Nat.le_refl _
      · have hsorted := sort_by_version_desc_sorted l
        rw [hs] at hsorted
        exact (List.pairwise_cons.mp hsorted).1 p hp'

/-- C4, counterexample: the claim reads the grouping as being over the
inclusion set, but the code groups the full package universe. With a universe
holding versions 2 (id 0) and 1 (id 1) of `hex` and an inclusion set holding
only id 1, the code assigns the versioned key `hex-1` (because the universe's
highest version claims the bare name), while the claim — the included member
forms a single-member group — demands the bare key `hex`. -/
theorem C4_counterexample_universe_grouping :
    compute_package_filenames [("hex", [⟨"hex", 2, 0⟩, ⟨"hex", 1, 1⟩])] [1] =
        [("hex-1", ⟨"hex", 1, 1⟩)] ∧
      package_filenames_spec_grouping [("hex", [⟨"hex", 2, 0⟩, ⟨"hex", 1, 1⟩])] [1] =
        [("hex", ⟨"hex", 1, 1⟩)] ∧
      compute_package_filenames [("hex", [⟨"hex", 2, 0⟩, ⟨"hex", 1, 1⟩])] [1] ≠
        package_filenames_spec_grouping [("hex", [⟨"hex", 2, 0⟩, ⟨"hex", 1, 1⟩])] [1] := by
  refine ⟨rfl, rfl, ?_⟩
  decide

/-- C4, amended: the grouping is over the full package universe, with versions
sorted descending. The highest-version member of a universe group is assigned
the bare package name as directory key, and every other member the versioned
`name-version` key — in each case only if that member is in the inclusion set
(so an included package whose universe group has a higher, excluded version
still gets `name-version`). A single-member group's member gets the bare name.
Under the "always use versioned directories" policy (modelled from the spec;
its handling is absent from `src/main.rs`), every included package is assigned
`name-version` regardless of group size. -/
theorem C4_directory_keys_amended (name : String) (pkgs : List Pkg) (included : List Nat)
    (h : pkgs ≠ []) :
    ∃ first rest, sort_by_version_desc pkgs = first :: rest ∧ first ∈ pkgs ∧
      (∀ p ∈ pkgs, p.version ≤ first.version) ∧
      compute_package_filenames [(name, pkgs)] included =
        (if included.contains first.id then [(name, first)] else []) ++
          (rest.filter (fun p => included.contains p.id)).map
            (fun p => (package_versioned_filename p, p)) ∧
      compute_package_filenames_versioned [(name, pkgs)] included =
        (pkgs.filter (fun p => included.contains p.id)).map
          (fun p => (package_versioned_filename p, p)) := by
  obtain ⟨first, rest, hs, hmem, hmax⟩ := sort_by_version_desc_head_max pkgs h
  refine ⟨first, rest, hs, hmem, hmax, ?_, ?_⟩
  · simp [compute_package_filenames, hs]
  · simp [compute_package_filenames_versioned]

/-- C4, witness for the amended theorem at a two-member group. -/
theorem C4_directory_keys_witness :
    ([⟨"hex", 2, 0⟩, ⟨"hex", 1, 1⟩] : List Pkg) ≠ [] ∧
      (∃ first rest,
        sort_by_version_desc [⟨"hex", 2, 0⟩, ⟨"hex", 1, 1⟩] = first :: rest ∧
          first ∈ ([⟨"hex", 2, 0⟩, ⟨"hex", 1, 1⟩] : List Pkg) ∧
          (∀ p ∈ ([⟨"hex", 2, 0⟩, ⟨"hex", 1, 1⟩] : List Pkg), p.version ≤ first.version) ∧
          compute_package_filenames [("hex", [⟨"hex", 2, 0⟩, ⟨"hex", 1, 1⟩])] [0, 1] =
            (if List.contains [0, 1] first.id then [("hex", first)] else []) ++
              (rest.filter (fun p => List.contains [0, 1] p.id)).map
                (fun p => (package_versioned_filename p, p)) ∧
          compute_package_filenames_versioned [("hex", [⟨"hex", 2, 0⟩, ⟨"hex", 1, 1⟩])] [0, 1] =
            (([⟨"hex", 2, 0⟩, ⟨"hex", 1, 1⟩] : List Pkg).filter
                (fun p => List.contains [0, 1] p.id)).map
              (fun p => (package_versioned_filename p, p))) :=
  ⟨by decide, C4_directory_keys_amended "hex" [⟨"hex", 2, 0⟩, ⟨"hex", 1, 1⟩] [0, 1] (by decide)⟩

/-! ## InclusionResolver boundary lemmas (claim C6) -/

theorem foldlM_collect_error (pv : List Char → Option Nat) (lines : List (List Char))
    (line : List Char) (hmem : line ∈ lines) (e : TreeParseError)
    (herr : parse_tree_line pv line = .error e) (acc : List (List Char × Nat)) :
    ∃ e', lines.foldlM (collect_tree_line pv) acc = .error e' := by
  induction lines generalizing acc with
  | nil => exact absurd hmem (List.not_mem_nil line)
  | cons l ls ih =>
    rcases List.mem_cons.mp hmem with h | h
    · subst h
      refine ⟨e, ?_⟩
      simp only [List.foldlM_cons, collect_tree_line, herr]
      rfl
    · cases hc : collect_tree_line pv acc l with
      | error e2 =>
        refine ⟨e2, ?_⟩
        simp only [List.foldlM_cons, hc]
        rfl
      | ok acc2 =>
        obtain ⟨e', h'⟩ := ih h acc2
        refine ⟨e', ?_⟩
        simp only [List.foldlM_cons, hc]
        simpa using h'

theorem get_required_packages_error (pv : List Char → Option Nat)
    (outputs : List (List (List Char))) (lines : List (List Char)) (hmem : lines ∈ outputs)
    (line : List Char) (hline : line ∈ lines) (e : TreeParseError)
    (herr : parse_tree_line pv line = .error e) :
    ∃ e', get_required_packages pv outputs = .error e' := by
  unfold get_required_packages
  suffices h : ∀ acc, ∃ e',
      outputs.foldlM (fun acc ls => ls.foldlM (collect_tree_line pv) acc) acc = .error e' from
    h []
  induction outputs with
  | nil => exact absurd hmem (List.not_mem_nil lines)
  | cons o os ih =>
    intro acc
    rcases List.mem_cons.mp hmem with h | h
    · subst h
      obtain ⟨e', h'⟩ := foldlM_collect_error pv lines line hline e herr acc
      refine ⟨e', ?_⟩
      simp only [List.foldlM_cons, h']
      rfl
    · cases hc : o.foldlM (collect_tree_line pv) acc with
      | error e2 =>
        refine ⟨e2, ?_⟩
        simp only [List.foldlM_cons, hc]
        rfl
      | ok acc2 =>
        obtain ⟨e', h'⟩ := ih h acc2
        refine ⟨e', ?_⟩
        simp only [List.foldlM_cons, hc]
        simpa using h'

/-- C6: for every line of the edge-listing output whose token split is known,
the embedded parser satisfies the claim: a second token shorter than 5 bytes
or containing `feature` is skipped; otherwise the literal `v` prefix is
stripped and the remainder handed to the semver parser; a parse failure is a
hard error naming the offending package and the version text, and any line
error makes the whole `get_required_packages` run fail rather than the line
being ignored. -/
theorem C6_tree_line_parsing (pv : List Char → Option Nat)
    (line package version : List Char) (rest : List (List Char))
    (htok : line.splitOn ' ' = package :: version :: rest) :
    TreeLineSpec pv line package version := by
  refine ⟨?_, ?_, ?_⟩
  · intro hskip
    have hcond : (decide (utf8Len version < 5) || containsSubstr version "feature".data) = true := by
      rcases hskip with h | h
      · simp [h]
      · simp [h]
    simp only [parse_tree_line, htok, hcond, if_true]
  · intro hlen hfeat
    have hcond : (decide (utf8Len version < 5) || containsSubstr version "feature".data) = false := by
      simp only [Bool.or_eq_false_iff]
      refine ⟨by simp; omega, hfeat⟩
    constructor
    · intro v0 hv
      subst hv
      constructor
      · intro sv hsv
        simp only [parse_tree_line, htok, hcond, Bool.false_eq_true, if_false, hsv]
      · intro hnone
        simp only [parse_tree_line, htok, hcond, Bool.false_eq_true, if_false, hnone]
    · intro hnv
      simp only [parse_tree_line, htok, hcond, Bool.false_eq_true, if_false]
  · intro outputs lines hmem hline e herr
    exact get_required_packages_error pv outputs lines hmem line hline e herr

/-- C6, witness: the per-line contract instantiated at the line `hex v0.4.3`
with a semver parser that accepts exactly `0.4.3`. -/
theorem C6_tree_line_parsing_witness :
    ("hex v0.4.3".data.splitOn ' ' = "hex".data :: "v0.4.3".data :: []) ∧
      TreeLineSpec (fun v0 => if v0 = "0.4.3".data then some 43 else none)
        "hex v0.4.3".data "hex".data "v0.4.3".data :=
  ⟨by decide,
    C6_tree_line_parsing (fun v0 => if v0 = "0.4.3".data then some 43 else none)
      "hex v0.4.3".data "hex".data "v0.4.3".data [] (by decide)⟩

/-! ## Output-path handling (claims C9 and C10) -/

/-- C9, counterexample: with the `tar` output format and a pre-existing
destination `vendor.tar`, the run succeeds and writes the archive to the
pre-existing destination (the `File::create` in `generate_tar_from` truncates
it) — no OutputConflict is raised for any tar-based format. -/
theorem C9_counterexample_tar_overwrite :
    run runTarOverExisting =
        ([.ranCargoVendor "tmp.XYZ/vendor", .filteredPackages, .wroteArchive "vendor.tar"],
          none) ∧
      runFinalOutputPath runTarOverExisting ∈ runTarOverExisting.existingPaths := by
  refine ⟨rfl, ?_⟩
  simp [runTarOverExisting, runFinalOutputPath]

/-- C9, amended: only the directory output format checks the destination —
there a pre-existing destination aborts the run with the output-conflict
error before any stage runs, so nothing is overwritten; for the tar-based
formats the conflict check applies to the fresh temporary vendor directory,
and a pre-existing destination archive is silently overwritten by a
successful run. -/
theorem C9_output_conflict_amended (i : RunInputs) :
    (i.format = .dir → i.existingPaths.contains (runFinalOutputPath i) = true →
        run i = ([], some (.outputConflict (runFinalOutputPath i)))) ∧
      (i.format ≠ .dir → i.existingPaths.contains (i.tempdirPath ++ "/vendor") = false →
        i.vendorSucceeds = true → i.filterSucceeds = true →
        run i = ([.ranCargoVendor (i.tempdirPath ++ "/vendor"), .filteredPackages,
            .wroteArchive (runFinalOutputPath i)], none)) := by
  constructor
  · intro hfmt hex
    have hdir : runOutputDir i = runFinalOutputPath i := by
      unfold runOutputDir
      rw [hfmt]
    simp only [run, hdir, hex, if_true]
  · intro hfmt hex hv hf
    have hex' : i.tempdirPath ++ "/vendor" ∉ i.existingPaths := by
      simpa using hex
    have hdir : runOutputDir i = i.tempdirPath ++ "/vendor" := by
      unfold runOutputDir
      cases hf2 : i.format with
      | dir => exact absurd hf2 hfmt
      | tar => rfl
      | tarGzip => rfl
      | tarZstd => rfl
    cases hf2 : i.format with
    | dir => exact absurd hf2 hfmt
    | tar => simp [run, hdir, hex', hv, hf, hf2]
    | tarGzip => simp [run, hdir, hex', hv, hf, hf2]
    | tarZstd => simp [run, hdir, hex', hv, hf, hf2]

/-- C9, witness for the amended theorem: the directory format refuses a
pre-existing `vendor` directory without running anything, and the gzip tar
format overwrites a pre-existing `vendor.tar.gz`. -/
theorem C9_output_conflict_witness :
    run runDirConflict = ([], some (.outputConflict "vendor")) ∧
      run runGzOverExisting =
        ([.ranCargoVendor "tmp.A/vendor", .filteredPackages,
            .wroteArchive "vendor.tar.gz"], none) :=
  ⟨(C9_output_conflict_amended runDirConflict).1 rfl (by decide),
    (C9_output_conflict_amended runGzOverExisting).2 (by decide) (by decide) rfl rfl⟩

/-- C10: with the directory output format and an archive path-prefix
supplied, the run fails with the prefix error, and the failure is raised only
after the vendor step and the filtering stage have run (both appear in the
trace before the error stops the run). -/
theorem C10_prefix_rejected_after_vendor (i : RunInputs)
    (hfmt : i.format = .dir) (hpfx : i.prefixArg.isSome = true)
    (hex : i.existingPaths.contains (runFinalOutputPath i) = false)
    (hv : i.vendorSucceeds = true) (hf : i.filterSucceeds = true) :
    run i = ([.ranCargoVendor (runOutputDir i), .filteredPackages],
        some .prefixWithNonTarFormat) := by
  have hdir : runOutputDir i = runFinalOutputPath i := by
    unfold runOutputDir
    rw [hfmt]
  have hex' : runFinalOutputPath i ∉ i.existingPaths := by
    simpa using hex
  simp [run, hdir, hex', hv, hf, hfmt, hpfx]

/-- C10, witness: a directory-format run with `--prefix=vendor` fails with
the prefix error after both stages ran. -/
theorem C10_prefix_rejected_witness :
    Option.isSome runDirWithPfx.prefixArg = true ∧
      run runDirWithPfx =
        ([.ranCargoVendor (runOutputDir runDirWithPfx), .filteredPackages],
          some .prefixWithNonTarFormat) :=
  ⟨rfl, C10_prefix_rejected_after_vendor runDirWithPfx rfl rfl (by decide) rfl rfl⟩

/-! ## StubReplacer lemmas (claims C1 and C2) -/

/-- Normal form of a successful `replace_with_stub`: the four reads succeed,
and the resulting directory and checksum structure are fully determined. -/
theorem replace_with_stub_eq (ext : ExternalCodecs) (fs fs' : FS) (cks' : CargoChecksums)
    (h : replace_with_stub ext fs = some (fs', cks')) :
    ∃ tb tv cb cks0,
      fs.lookup CARGO_TOML = some tb ∧ ext.parseToml tb = some tv ∧
        fs.lookup CARGO_CHECKSUM = some cb ∧ ext.parseChecksums cb = some cks0 ∧
        cks' = { cks0 with files :=
          [(CARGO_TOML, ext.sha256_hexdigest (ext.serializeToml (filter_manifest tv))),
            ("src/lib.rs", ext.sha256_hexdigest [])] } ∧
        fs' = [(CARGO_TOML, ext.serializeToml (filter_manifest tv)), ("src/lib.rs", []),
          (CARGO_CHECKSUM, ext.serializeChecksums cks')] := by
  unfold replace_with_stub at h
  obtain ⟨tb, h1, h⟩ := Option.bind_eq_some.mp h
  obtain ⟨tv, h2, h⟩ := Option.bind_eq_some.mp h
  obtain ⟨cb, h3, h⟩ := Option.bind_eq_some.mp h
  obtain ⟨cks0, h4, h⟩ := Option.bind_eq_some.mp h
  refine ⟨tb, tv, cb, cks0, h1, h2, h3, h4, ?_⟩
  have hb1 : (CARGO_TOML == "src/lib.rs") = false := by decide
  have hb2 : (CARGO_TOML == CARGO_CHECKSUM) = false := by decide
  have hb3 : (("src/lib.rs" : String) == CARGO_CHECKSUM) = false := by decide
  have hs1 : strLt "src/lib.rs" CARGO_TOML = false := by decide
  have hne1 : ("src/lib.rs" : String) ≠ CARGO_TOML := by decide
  simp only [writef, fsWrite, btreeInsert, List.any_nil, List.any_cons, hb1, hb2, hb3,
    Bool.or_self, Bool.or_false, Bool.false_or, if_false, Bool.false_eq_true, hs1, hne1,
    List.nil_append, List.cons_append, Option.some.injEq, Prod.mk.injEq, ite_false] at h
  obtain ⟨hfs, hcks⟩ := h
  subst hcks
  constructor
  · rfl
  · exact hfs.symm

/-- C1: when `replace_with_stub` succeeds on a package directory, exactly one
source file (file under `src/`) remains and it is zero bytes long; the
rewritten checksum manifest's per-file digest map holds exactly one entry per
surviving written file — the re-serialized manifest, keyed to the digest of
the manifest bytes actually on disk, and the empty source file, keyed to the
digest of empty content; and the optional aggregate `package` digest field is
byte-identical to its pre-stub value. -/
theorem C1_replace_with_stub_correct (ext : ExternalCodecs) (fs fs' : FS)
    (cks' : CargoChecksums) (h : replace_with_stub ext fs = some (fs', cks')) :
    fs'.filter (fun e => pathStartsWith e.1 "src") = [("src/lib.rs", [])] ∧
      cks'.files.map Prod.fst = [CARGO_TOML, "src/lib.rs"] ∧
      (∃ mdata, fs'.lookup CARGO_TOML = some mdata ∧
        cks'.files.lookup CARGO_TOML = some (ext.sha256_hexdigest mdata)) ∧
      cks'.files.lookup "src/lib.rs" = some (ext.sha256_hexdigest []) ∧
      (∃ cb cks0, fs.lookup CARGO_CHECKSUM = some cb ∧
        ext.parseChecksums cb = some cks0 ∧ cks'.package = cks0.package) := by
  obtain ⟨tb, tv, cb, cks0, h1, h2, h3, h4, hcks, hfs⟩ := replace_with_stub_eq ext fs fs' cks' h
  subst hcks
  subst hfs
  have hp1 : pathStartsWith CARGO_TOML "src" = false := by decide
  have hp2 : pathStartsWith "src/lib.rs" "src" = true := by decide
  have hp3 : pathStartsWith CARGO_CHECKSUM "src" = false := by decide
  have hq1 : (CARGO_TOML == CARGO_TOML) = true := by decide
  have hq2 : (("src/lib.rs" : String) == CARGO_TOML) = false := by decide
  refine ⟨?_, rfl, ⟨ext.serializeToml (filter_manifest tv), ?_, ?_⟩, ?_,
    ⟨cb, cks0, h3, h4, rfl⟩⟩
  · simp [List.filter, hp1, hp2, hp3]
  · simp [List.lookup, hq1]
  · simp [List.lookup, hq1]
  · simp [List.lookup, hq1, hq2]

/-- C1, witness: `replace_with_stub` applied to the concrete two-file package
`stubInputFS` under `testCodecs`. -/
theorem C1_replace_with_stub_witness :
    replace_with_stub testCodecs stubInputFS = some (stubOutputFS, stubOutputCks) ∧
      (stubOutputFS.filter (fun e => pathStartsWith e.1 "src") = [("src/lib.rs", [])] ∧
        stubOutputCks.files.map Prod.fst = [CARGO_TOML, "src/lib.rs"] ∧
        (∃ mdata, stubOutputFS.lookup CARGO_TOML = some mdata ∧
          stubOutputCks.files.lookup CARGO_TOML = some (testCodecs.sha256_hexdigest mdata)) ∧
        stubOutputCks.files.lookup "src/lib.rs" = some (testCodecs.sha256_hexdigest []) ∧
        (∃ cb cks0, stubInputFS.lookup CARGO_CHECKSUM = some cb ∧
          testCodecs.parseChecksums cb = some cks0 ∧ stubOutputCks.package = cks0.package)) :=
  ⟨rfl, C1_replace_with_stub_correct testCodecs stubInputFS stubOutputFS stubOutputCks rfl⟩

/-! ## Association list and file-map lemmas -/

theorem lookup_mem {β : Type} (l : List (String × β)) (k : String) (v : β)
    (h : l.lookup k = some v) : (k, v) ∈ l := by
  induction l with
  | nil => simp [List.lookup] at h
  | cons e rest ih =>
    obtain ⟨ek, ev⟩ := e
    rw [List.lookup] at h
    by_cases hk : (k == ek) = true
    · have hkk : k = ek := by simpa using hk
      rw [hk] at h
      simp only [Option.some.injEq] at h
      have hkv : (k, v) = (ek, ev) := by rw [hkk, h]
      rw [hkv]
      exact List.mem_cons_self _ _
    · have hk' : (k == ek) = false := by simpa using hk
      rw [hk'] at h
      exact List.mem_cons_of_mem _ (ih h)

theorem lookup_filter_key {β : Type} (l : List (String × β)) (q : String → Bool) (k : String) :
    (l.filter (fun e => q e.1)).lookup k = if q k then l.lookup k else none := by
  induction l with
  | nil => simp [List.lookup]
  | cons e rest ih =>
    obtain ⟨ek, ev⟩ := e
    by_cases hk : (k == ek) = true
    · have hkk : k = ek := by simpa using hk
      subst hkk
      by_cases hq : q k = true
      · simp [List.filter_cons, hq, List.lookup]
      · have hq' : q k = false := by simpa using hq
        simp [List.filter_cons, hq', List.lookup, ih]
    · have hk' : (k == ek) = false := by simpa using hk
      by_cases hq : q ek = true
      · simp [List.filter_cons, hq, List.lookup, hk', ih]
      · have hq' : q ek = false := by simpa using hq
        simp [List.filter_cons, hq', List.lookup, hk', ih]

theorem lookup_append_single_ne {β : Type} (l : List (String × β)) (p : String) (c : β)
    (k : String) (hbk : (k == p) = false) :
    (l ++ [(p, c)]).lookup k = l.lookup k := by
  induction l with
  | nil => simp [List.lookup, hbk]
  | cons e rest ih =>
    obtain ⟨ek, ev⟩ := e
    rw [List.cons_append, List.lookup, List.lookup]
    by_cases hke : (k == ek) = true
    · rw [hke]
    · have hke' : (k == ek) = false := by simpa using hke
      rw [hke', ih]

theorem lookup_map_update_ne (l : FS) (p : String) (c : ByteSeq) (k : String)
    (hbk : (k == p) = false) :
    (l.map (fun e => if e.1 == p then (p, c) else e)).lookup k = l.lookup k := by
  induction l with
  | nil => simp
  | cons e rest ih =>
    obtain ⟨ek, ev⟩ := e
    by_cases hep : ((ek, ev).1 == p) = true
    · have hepe : ek = p := by simpa using hep
      rw [List.map_cons, if_pos hep, List.lookup, List.lookup, hbk]
      have hke : (k == ek) = false := by
        rw [hepe]
        exact hbk
      rw [hke]
      exact ih
    · rw [List.map_cons, if_neg hep, List.lookup, List.lookup]
      by_cases hke : (k == ek) = true
      · rw [hke]
      · have hke' : (k == ek) = false := by simpa using hke
        rw [hke', ih]

theorem lookup_fsWrite_ne (l : FS) (p : String) (c : ByteSeq) (k : String) (hne : k ≠ p) :
    (fsWrite l p c).lookup k = l.lookup k := by
  have hbk : (k == p) = false := by simpa using hne
  unfold fsWrite
  by_cases hmem : l.any (fun e => e.1 == p) = true
  · rw [if_pos hmem]
    exact lookup_map_update_ne l p c k hbk
  · rw [if_neg hmem]
    exact lookup_append_single_ne l p c k hbk

theorem mem_fsWrite (l : FS) (p : String) (c : ByteSeq) (k : String) (v : ByteSeq)
    (h : (k, v) ∈ fsWrite l p c) : k = p ∨ ∃ v', (k, v') ∈ l := by
  unfold fsWrite at h
  by_cases hmem : l.any (fun e => e.1 == p) = true
  · rw [if_pos hmem] at h
    obtain ⟨e, he, heq⟩ := List.mem_map.mp h
    by_cases hep : (e.1 == p) = true
    · rw [if_pos hep] at heq
      left
      have : p = k := congrArg Prod.fst heq
      exact this.symm
    · rw [if_neg hep] at heq
      right
      exact ⟨v, heq ▸ he⟩
  · rw [if_neg hmem] at h
    rcases List.mem_append.mp h with h | h
    · exact Or.inr ⟨v, h⟩
    · left
      have := List.mem_singleton.mp h
      exact congrArg Prod.fst this

/-! ## PathPruner fold lemmas (claims C2 and C8) -/

theorem prune_fold_ok (excludes : List String) (g : FS) (b : Bool) (w : List String)
    (habs : ∀ ex ∈ excludes, pathIsAbsolute ex = false) :
    ∃ st : PruneState,
      excludes.foldlM processExcludeStep ⟨g, b, w⟩ = .ok st ∧
        st.fs = pruneSurvivors excludes g ∧
        st.matched = (b || excludes.any (fun ex => pathExists ex g)) := by
  revert habs
  induction excludes generalizing g b w with
  | nil =>
    intro _
    refine ⟨⟨g, b, w⟩, rfl, ?_, ?_⟩
    · simp [pruneSurvivors, keepsPath]
    · simp
  | cons ex rest ih =>
    intro habs
    have hexabs : pathIsAbsolute ex = false := habs ex (List.mem_cons_self _ _)
    have hrest : ∀ e ∈ rest, pathIsAbsolute e = false :=
      fun e he => habs e (List.mem_cons_of_mem _ he)
    by_cases hmatch : pathExists ex g = true
    · obtain ⟨st, hst, hfs, hm⟩ := ih (removePath ex g) true w hrest
      refine ⟨st, ?_, ?_, ?_⟩
      · rw [List.foldlM_cons]
        have hstep : processExcludeStep ⟨g, b, w⟩ ex = .ok ⟨removePath ex g, true, w⟩ := by
          simp [processExcludeStep, hexabs, hmatch]
        rw [hstep]
        simpa using hst
      · rw [hfs]
        unfold pruneSurvivors removePath keepsPath
        rw [List.filter_filter]
        apply List.filter_congr
        intro e _
        cases hsw : pathStartsWith e.1 ex <;> simp [hsw]
      · rw [hm]
        simp [hmatch]
    · have hmatch' : pathExists ex g = false := by simpa using hmatch
      have hall : ∀ e ∈ g, pathStartsWith e.1 ex = false := by
        intro e he
        have := List.any_eq_false.mp hmatch' e he
        simpa using this
      obtain ⟨st, hst, hfs, hm⟩ := ih g b (w ++ [ex]) hrest
      refine ⟨st, ?_, ?_, ?_⟩
      · rw [List.foldlM_cons]
        have hstep : processExcludeStep ⟨g, b, w⟩ ex = .ok ⟨g, b, w ++ [ex]⟩ := by
          simp [processExcludeStep, hexabs, hmatch']
        rw [hstep]
        simpa using hst
      · rw [hfs]
        unfold pruneSurvivors keepsPath
        apply List.filter_congr
        intro e he
        simp [List.any_cons, hall e he]
      · rw [hm]
        simp [List.any_cons, hmatch']

theorem prune_fold_absolute (excludes : List String) (g : FS) (b : Bool) (w : List String)
    (habs : ∃ ex ∈ excludes, pathIsAbsolute ex = true) :
    ∃ ex', pathIsAbsolute ex' = true ∧
      excludes.foldlM processExcludeStep ⟨g, b, w⟩ = .error (.absolutePath ex') := by
  revert habs
  induction excludes generalizing g b w with
  | nil =>
    intro habs
    simp at habs
  | cons ex rest ih =>
    intro habs
    by_cases hexabs : pathIsAbsolute ex = true
    · refine ⟨ex, hexabs, ?_⟩
      rw [List.foldlM_cons]
      have hstep : processExcludeStep ⟨g, b, w⟩ ex = .error (.absolutePath ex) := by
        simp [processExcludeStep, hexabs]
      rw [hstep]
      rfl
    · have hexabs' : pathIsAbsolute ex = false := by simpa using hexabs
      have hrest : ∃ e ∈ rest, pathIsAbsolute e = true := by
        obtain ⟨e, he, habs2⟩ := habs
        rcases List.mem_cons.mp he with rfl | he'
        · rw [hexabs'] at habs2
          exact absurd habs2 (by simp)
        · exact ⟨e, he', habs2⟩
      by_cases hmatch : pathExists ex g = true
      · obtain ⟨ex', h1, h2⟩ := ih (removePath ex g) true w hrest
        refine ⟨ex', h1, ?_⟩
        rw [List.foldlM_cons]
        have hstep : processExcludeStep ⟨g, b, w⟩ ex = .ok ⟨removePath ex g, true, w⟩ := by
          simp [processExcludeStep, hexabs', hmatch]
        rw [hstep]
        simpa using h2
      · have hmatch' : pathExists ex g = false := by simpa using hmatch
        obtain ⟨ex', h1, h2⟩ := ih g b (w ++ [ex]) hrest
        refine ⟨ex', h1, ?_⟩
        rw [List.foldlM_cons]
        have hstep : processExcludeStep ⟨g, b, w⟩ ex = .ok ⟨g, b, w ++ [ex]⟩ := by
          simp [processExcludeStep, hexabs', hmatch']
        rw [hstep]
        simpa using h2

theorem prune_fold_unmatched (excludes : List String) (g : FS) (b : Bool) (w : List String)
    (h : ∀ ex ∈ excludes, pathIsAbsolute ex = false ∧ pathExists ex g = false) :
    excludes.foldlM processExcludeStep ⟨g, b, w⟩ = .ok ⟨g, b, w ++ excludes⟩ := by
  revert h
  induction excludes generalizing w with
  | nil =>
    intro _
    simp only [List.foldlM_nil, List.append_nil]
    rfl
  | cons ex rest ih =>
    intro h
    obtain ⟨habs, hex⟩ := h ex (List.mem_cons_self _ _)
    rw [List.foldlM_cons]
    have hstep : processExcludeStep ⟨g, b, w⟩ ex = .ok ⟨g, b, w ++ [ex]⟩ := by
      simp [processExcludeStep, habs, hex]
    rw [hstep]
    have := ih (w ++ [ex]) (fun e he => h e (List.mem_cons_of_mem _ he))
    simpa [List.append_assoc] using this

/-- Dissection of a successful `process_excludes` run (no absolute pattern):
either nothing matched and nothing was touched, or something matched and the
checksum file was reread, shrunk by the retention predicate, and rewritten. -/
theorem process_excludes_ok_cases (ext : ExternalCodecs) (fs : FS) (excludes : List String)
    (fs' : FS) (ocks : Option CargoChecksums) (w : List String)
    (habs : ∀ ex ∈ excludes, pathIsAbsolute ex = false)
    (hok : process_excludes ext fs excludes = .ok (fs', ocks, w)) :
    (excludes.any (fun ex => pathExists ex fs) = false ∧ ocks = none ∧
        fs' = pruneSurvivors excludes fs) ∨
      (excludes.any (fun ex => pathExists ex fs) = true ∧
        ∃ cdata cks,
          (pruneSurvivors excludes fs).lookup CARGO_CHECKSUM = some cdata ∧
            ext.parseChecksums cdata = some cks ∧
            cks.files.length ≠ (cks.files.filter (fun e => keepsPath excludes e.1)).length ∧
            ocks = some { cks with files := cks.files.filter (fun e => keepsPath excludes e.1) } ∧
            fs' = fsWrite (pruneSurvivors excludes fs) CARGO_CHECKSUM
              (ext.serializeChecksums
                { cks with files := cks.files.filter (fun e => keepsPath excludes e.1) })) := by
  obtain ⟨st, hst, hfs, hm⟩ := prune_fold_ok excludes fs false [] habs
  unfold process_excludes at hok
  rw [hst] at hok
  rw [show Except.ok st = (pure st : Except PruneError PruneState) from rfl] at hok
  rw [pure_bind] at hok
  by_cases hmat : excludes.any (fun ex => pathExists ex fs) = true
  · right
    refine ⟨hmat, ?_⟩
    have hm' : st.matched = true := by
      rw [hm, hmat]
      simp
    rw [hm'] at hok
    simp only [if_true] at hok
    rw [hfs] at hok
    cases hl : (pruneSurvivors excludes fs).lookup CARGO_CHECKSUM with
    | none =>
      simp only [hl] at hok
      exact absurd hok (by simp)
    | some cdata =>
      simp only [hl] at hok
      cases hp : ext.parseChecksums cdata with
      | none =>
        simp only [hp] at hok
        exact absurd hok (by simp)
      | some cks =>
        simp only [hp] at hok
        by_cases hlen : cks.files.length =
            (cks.files.filter (fun e => keepsPath excludes e.1)).length
        · rw [if_pos hlen] at hok
          exact absurd hok (by simp)
        · rw [if_neg hlen] at hok
          simp only [Except.ok.injEq, Prod.mk.injEq] at hok
          obtain ⟨h1, h2, h3⟩ := hok
          exact ⟨cdata, cks, rfl, hp, hlen, h2.symm, h1.symm⟩
  · left
    have hmat' : excludes.any (fun ex => pathExists ex fs) = false := by simpa using hmat
    have hm' : st.matched = false := by
      rw [hm, hmat']
      simp
    rw [hm'] at hok
    simp only [Bool.false_eq_true, if_false] at hok
    simp only [Except.ok.injEq, Prod.mk.injEq] at hok
    obtain ⟨h1, h2, h3⟩ := hok
    exact ⟨hmat', h2.symm, by rw [← h1, hfs]⟩

theorem keepsPath_all (excludes : List String) (k : String) (h : keepsPath excludes k = true) :
    ∀ ex ∈ excludes, pathStartsWith k ex = false := by
  intro ex hex
  unfold keepsPath at h
  have hany : excludes.any (fun ex => pathStartsWith k ex) = false := by simpa using h
  simpa using List.any_eq_false.mp hany ex hex

/-- C8: for every exclude-pattern list handed to `process_excludes`: an
absolute pattern is a hard error aborting the run; when every pattern matches
nothing on the filesystem the run succeeds, emits exactly one warning per
pattern, and leaves the directory — in particular the checksum file and its
entry count — entirely unchanged; and a matching pattern recursively removes
the matched file or directory, so no file under any matched pattern survives
in the resulting directory. -/
theorem C8_process_excludes_errors (ext : ExternalCodecs) (fs : FS) (excludes : List String) :
    ((∃ ex ∈ excludes, pathIsAbsolute ex = true) →
        ∃ ex', pathIsAbsolute ex' = true ∧
          process_excludes ext fs excludes = .error (.absolutePath ex')) ∧
      ((∀ ex ∈ excludes, pathIsAbsolute ex = false ∧ pathExists ex fs = false) →
        process_excludes ext fs excludes = .ok (fs, none, excludes)) ∧
      ((∀ ex ∈ excludes, pathIsAbsolute ex = false) →
        ∀ fs' ocks w, process_excludes ext fs excludes = .ok (fs', ocks, w) →
          ∀ ex ∈ excludes, pathExists ex fs = true →
            ∀ k v, (k, v) ∈ fs' → pathStartsWith k ex = false) := by
  refine ⟨?_, ?_, ?_⟩
  · intro habs
    obtain ⟨ex', h1, h2⟩ := prune_fold_absolute excludes fs false [] habs
    refine ⟨ex', h1, ?_⟩
    unfold process_excludes
    rw [h2]
    rfl
  · intro h
    unfold process_excludes
    rw [prune_fold_unmatched excludes fs false [] h]
    rw [show Except.ok (⟨fs, false, [] ++ excludes⟩ : PruneState) =
        (pure ⟨fs, false, [] ++ excludes⟩ : Except PruneError PruneState) from rfl, pure_bind]
    simp
  · intro habs fs' ocks w hok ex hex hmat k v hmem
    rcases process_excludes_ok_cases ext fs excludes fs' ocks w habs hok with
      ⟨hany, _, hfs'⟩ | ⟨hany, cdata, cks, hl, hp, hlen, hocks, hfs'⟩
    · exfalso
      have := List.any_eq_false.mp hany ex hex
      rw [hmat] at this
      exact this rfl
    · subst hfs'
      rcases mem_fsWrite _ _ _ _ _ hmem with hk | ⟨v', hmem'⟩
      · subst hk
        have hmem2 := lookup_mem _ _ _ hl
        have hkeeps := (List.mem_filter.mp hmem2).2
        exact keepsPath_all excludes CARGO_CHECKSUM hkeeps ex hex
      · have hkeeps := (List.mem_filter.mp hmem').2
        exact keepsPath_all excludes k hkeeps ex hex

/-- C8, witness: the three parts at concrete inputs — an absolute exclude
aborts; a non-matching exclude only warns and leaves the two-file package
untouched; an exclude matching `src` on the stub package removes everything
under it, and e.g. the surviving `Cargo.toml` is not under the pattern. -/
theorem C8_process_excludes_witness :
    (∃ ex', pathIsAbsolute ex' = true ∧
        process_excludes testCodecs stubInputFS ["/abs"] = .error (.absolutePath ex')) ∧
      process_excludes testCodecs stubInputFS ["nope"] = .ok (stubInputFS, none, ["nope"]) ∧
      process_excludes testCodecs stubOutputFS ["src"] =
        .ok ([(CARGO_TOML, []), (CARGO_CHECKSUM, [])], some ⟨[], none⟩, []) ∧
      pathStartsWith CARGO_TOML "src" = false :=
  ⟨(C8_process_excludes_errors testCodecs stubInputFS ["/abs"]).1
      ⟨"/abs", by decide, by decide⟩,
    (C8_process_excludes_errors testCodecs stubInputFS ["nope"]).2.1
      (by intro ex hex; rw [List.mem_singleton.mp hex]; exact ⟨by decide, by decide⟩),
    rfl,
    (C8_process_excludes_errors testCodecs stubOutputFS ["src"]).2.2 (by decide)
      [(CARGO_TOML, []), (CARGO_CHECKSUM, [])] (some ⟨[], none⟩) [] rfl
      "src" (by decide) (by decide) CARGO_TOML [] (by decide)⟩

theorem except_error_bind {ε α β : Type} (e : ε) (f : α → Except ε β) :
    (Except.error e >>= f) = Except.error e := rfl

/-- C2: the checksum-manifest invariant — every surviving content file has
exactly one digest entry and no stale entries remain — is preserved by the two
mutating operations. For `replace_with_stub` it holds unconditionally of any
successful run; for `process_excludes` it is preserved from input to output;
and a successful `process_excludes` that rewrote the checksum file (i.e. at
least one filesystem deletion occurred) strictly decreased the entry count —
the run would otherwise have aborted with the fatal `integrityViolation`. -/
theorem C2_checksum_invariant_preserved (ext : ExternalCodecs) :
    (∀ fs fs' cks', replace_with_stub ext fs = some (fs', cks') →
        ChecksumInvariant fs' cks') ∧
      (∀ fs excludes cks cdata fs' ocks w,
        ChecksumInvariant fs cks →
        fs.lookup CARGO_CHECKSUM = some cdata →
        ext.parseChecksums cdata = some cks →
        process_excludes ext fs excludes = .ok (fs', ocks, w) →
        ChecksumInvariant fs' (ocks.getD cks)) ∧
      (∀ fs excludes cks cdata fs' cks' w,
        fs.lookup CARGO_CHECKSUM = some cdata →
        ext.parseChecksums cdata = some cks →
        process_excludes ext fs excludes = .ok (fs', some cks', w) →
        cks'.files.length < cks.files.length) := by
  have habs_case : ∀ (fs : FS) (excludes : List String) (r : FS × Option CargoChecksums × List String),
      process_excludes ext fs excludes = .ok r →
      ∀ ex ∈ excludes, pathIsAbsolute ex = false := by
    intro fs excludes r hok ex hex
    by_cases habs : pathIsAbsolute ex = true
    · exfalso
      obtain ⟨ex', _, h2⟩ := prune_fold_absolute excludes fs false [] ⟨ex, hex, habs⟩
      unfold process_excludes at hok
      rw [h2, except_error_bind] at hok
      exact absurd hok (by simp)
    · simpa using habs
  have identify : ∀ (fs : FS) (excludes : List String) (cks : CargoChecksums)
      (cdata cdata2 : ByteSeq) (cks2 : CargoChecksums),
      fs.lookup CARGO_CHECKSUM = some cdata →
      ext.parseChecksums cdata = some cks →
      (pruneSurvivors excludes fs).lookup CARGO_CHECKSUM = some cdata2 →
      ext.parseChecksums cdata2 = some cks2 →
      cks2 = cks := by
    intro fs excludes cks cdata cdata2 cks2 hlc hpc hl2 hp2
    rw [pruneSurvivors, lookup_filter_key] at hl2
    by_cases hkc : keepsPath excludes CARGO_CHECKSUM = true
    · rw [if_pos hkc, hlc] at hl2
      have : cdata2 = cdata := by simpa using hl2.symm
      rw [this, hpc] at hp2
      simpa using hp2.symm
    · rw [if_neg hkc] at hl2
      exact absurd hl2 (by simp)
  refine ⟨?_, ?_, ?_⟩
  · intro fs fs' cks' h
    obtain ⟨tb, tv, cb, cks0, h1, h2, h3, h4, hcks, hfs⟩ := replace_with_stub_eq ext fs fs' cks' h
    subst hcks
    subst hfs
    constructor
    · simp only [List.map_cons, List.map_nil]
      decide
    · intro p hp
      have hbcc : (p == CARGO_CHECKSUM) = false := by simpa using hp
      by_cases hpt : p = CARGO_TOML
      · subst hpt
        have : (CARGO_TOML == CARGO_TOML) = true := by decide
        simp [List.lookup, this]
      · by_cases hps : p = "src/lib.rs"
        · subst hps
          have b1 : (("src/lib.rs" : String) == CARGO_TOML) = false := by decide
          have b2 : (("src/lib.rs" : String) == "src/lib.rs") = true := by decide
          simp [List.lookup, b1, b2]
        · have b1 : (p == CARGO_TOML) = false := by simpa using hpt
          have b2 : (p == "src/lib.rs") = false := by simpa using hps
          simp [List.lookup, b1, b2, hbcc]
  · intro fs excludes cks cdata fs' ocks w hinv hlc hpc hok
    have habs := habs_case fs excludes (fs', ocks, w) hok
    rcases process_excludes_ok_cases ext fs excludes fs' ocks w habs hok with
      ⟨hany, hocks, hfs'⟩ | ⟨hany, cdata2, cks2, hl2, hp2, hlen2, hocks2, hfs'2⟩
    · subst hocks
      subst hfs'
      have hid : pruneSurvivors excludes fs = fs := by
        unfold pruneSurvivors
        rw [List.filter_eq_self]
        intro e he
        have hthis : excludes.any (fun ex => pathStartsWith e.1 ex) = false := by
          rw [List.any_eq_false]
          intro ex hex
          have hpe : pathExists ex fs = false := by
            simpa using List.any_eq_false.mp hany ex hex
          have := List.any_eq_false.mp hpe e he
          simpa using this
        simp [keepsPath, hthis]
      rw [hid]
      simpa using hinv
    · have hcks2 : cks2 = cks := identify fs excludes cks cdata cdata2 cks2 hlc hpc hl2 hp2
      subst hcks2
      subst hocks2
      subst hfs'2
      constructor
      · simp only [Option.getD_some]
        have hsub : ((cks2.files.filter (fun e => keepsPath excludes e.1)).map Prod.fst).Sublist
            (cks2.files.map Prod.fst) :=
          List.Sublist.map Prod.fst (List.filter_sublist cks2.files)
        exact hinv.1.sublist hsub
      · intro p hp
        rw [lookup_fsWrite_ne _ _ _ _ hp]
        rw [pruneSurvivors, lookup_filter_key]
        simp only [Option.getD_some, CargoChecksums.files]
        rw [lookup_filter_key]
        by_cases hkp : keepsPath excludes p = true
        · rw [if_pos hkp, if_pos hkp]
          exact hinv.2 p hp
        · rw [if_neg hkp, if_neg hkp]
          exact Iff.rfl
  · intro fs excludes cks cdata fs' cks' w hlc hpc hok
    have habs := habs_case fs excludes (fs', some cks', w) hok
    rcases process_excludes_ok_cases ext fs excludes fs' (some cks') w habs hok with
      ⟨_, hocks, _⟩ | ⟨hany, cdata2, cks2, hl2, hp2, hlen2, hocks2, hfs'2⟩
    · exact absurd hocks (by simp)
    · have hcks2 : cks2 = cks := identify fs excludes cks cdata cdata2 cks2 hlc hpc hl2 hp2
      subst hcks2
      have hch : cks' = { cks2 with files := cks2.files.filter (fun e => keepsPath excludes e.1) } := by
        simpa using hocks2
      rw [hch]
      show (cks2.files.filter (fun e => keepsPath excludes e.1)).length < cks2.files.length
      have hle := List.length_filter_le (fun e => keepsPath excludes e.1) cks2.files
      have hne := hlen2
      omega

/-- C2, witness: the invariant instances at concrete inputs — for the stubbed
two-file package, for a non-matching prune (unchanged), and the strict entry
count decrease for a matching prune of `src` (1 entry drops to 0). -/
theorem C2_checksum_invariant_witness :
    ChecksumInvariant prunedPkgFS pkgCks ∧
      ChecksumInvariant stubOutputFS stubOutputCks ∧
      ChecksumInvariant prunedPkgFS ((none : Option CargoChecksums).getD pkgCks) ∧
      (⟨[], none⟩ : CargoChecksums).files.length < pkgCks.files.length := by
  have hinv : ChecksumInvariant prunedPkgFS pkgCks := by
    constructor
    · decide
    · intro p hp
      by_cases h1 : p = "src/lib.rs"
      · subst h1
        decide
      · have b1 : (p == "src/lib.rs") = false := by simpa using h1
        have b2 : (p == CARGO_CHECKSUM) = false := by simpa using hp
        simp [prunedPkgFS, pkgCks, List.lookup, b1, b2]
  refine ⟨hinv, ?_, ?_, ?_⟩
  · exact (C2_checksum_invariant_preserved testCodecs).1 stubInputFS stubOutputFS
      stubOutputCks rfl
  · exact (C2_checksum_invariant_preserved testCodecs).2.1 prunedPkgFS ["nope"] pkgCks []
      prunedPkgFS none ["nope"] hinv rfl rfl rfl
  · exact (C2_checksum_invariant_preserved testCodecs).2.2 stubOutputFS ["src"] pkgCks []
      [(CARGO_TOML, []), (CARGO_CHECKSUM, [])] ⟨[], none⟩ [] rfl rfl rfl

/-! ## DirectoryReconciler lemmas (claim C5) -/

theorem except_pure_eq_ok {ε α : Type} (a : α) : (pure a : Except ε α) = Except.ok a := rfl

theorem except_throw_bind {ε α β : Type} (e : ε) (f : α → Except ε β) :
    ((throw e : Except ε α) >>= f) = Except.error e := rfl

theorem reconcileEntry_events (ext : ExternalCodecs) (package_filenames : List String)
    (excludes : List (String × List String)) (entry : String × FS) (fs1 : FS)
    (evs : List VendorEvent)
    (h : reconcileEntry ext package_filenames excludes entry = .ok (fs1, evs)) :
    evs = reconcileEvents package_filenames excludes entry.1 := by
  unfold reconcileEntry at h
  unfold reconcileEvents
  by_cases hc : package_filenames.contains entry.1 = true
  · simp only [hc, if_true] at h ⊢
    rw [show (pure (entry.2, ([] : List VendorEvent)) :
        Except ReconcileError (FS × List VendorEvent)) >>= _ = _ from pure_bind _ _] at h
    generalize hfs0 : entry.2 = entryFS at h
    cases h1 : excludes.lookup entry.1 with
    | none =>
      simp only [h1] at h ⊢
      rw [show (pure (entryFS, ([] : List VendorEvent)) :
          Except ReconcileError (FS × List VendorEvent)) >>= _ = _ from pure_bind _ _] at h
      cases h2 : excludes.lookup "*" with
      | none =>
        simp only [h2] at h ⊢
        rw [show (pure (entryFS, ([] : List VendorEvent)) :
            Except ReconcileError (FS × List VendorEvent)) >>= _ = _ from pure_bind _ _] at h
        rw [except_pure_eq_ok] at h
        injection h with h
        injection h with hfs hev
        simp [← hev]
      | some gex =>
        simp only [h2] at h ⊢
        cases h3 : process_excludes ext entryFS gex with
        | error e =>
          simp only [h3] at h
          rw [except_throw_bind] at h
          exact absurd h (by simp)
        | ok r =>
          obtain ⟨gfs, gocks, gw⟩ := r
          simp only [h3] at h
          rw [show (pure (gfs, [VendorEvent.pruned entry.1 gex]) :
              Except ReconcileError (FS × List VendorEvent)) >>= _ = _ from pure_bind _ _] at h
          rw [except_pure_eq_ok] at h
          injection h with h
          injection h with hfs hev
          simp [← hev]
    | some cex =>
      simp only [h1] at h ⊢
      cases h3 : process_excludes ext entryFS cex with
      | error e =>
        simp only [h3] at h
        rw [except_throw_bind] at h
        exact absurd h (by simp)
      | ok r =>
        obtain ⟨cfs, cocks, cw⟩ := r
        simp only [h3] at h
        rw [show (pure (cfs, [VendorEvent.pruned entry.1 cex]) :
            Except ReconcileError (FS × List VendorEvent)) >>= _ = _ from pure_bind _ _] at h
        cases h2 : excludes.lookup "*" with
        | none =>
          simp only [h2] at h ⊢
          rw [show (pure (cfs, ([] : List VendorEvent)) :
              Except ReconcileError (FS × List VendorEvent)) >>= _ = _ from pure_bind _ _] at h
          rw [except_pure_eq_ok] at h
          injection h with h
          injection h with hfs hev
          simp [← hev]
        | some gex =>
          simp only [h2] at h ⊢
          cases h4 : process_excludes ext cfs gex with
          | error e =>
            simp only [h4] at h
            rw [except_throw_bind] at h
            exact absurd h (by simp)
          | ok r2 =>
            obtain ⟨gfs, gocks, gw⟩ := r2
            simp only [h4] at h
            rw [show (pure (gfs, [VendorEvent.pruned entry.1 gex]) :
                Except ReconcileError (FS × List VendorEvent)) >>= _ = _ from pure_bind _ _] at h
            rw [except_pure_eq_ok] at h
            injection h with h
            injection h with hfs hev
            simp [← hev]
  · simp only [hc, Bool.false_eq_true, if_false] at h ⊢
    cases hs : replace_with_stub ext entry.2 with
    | none =>
      simp only [hs] at h
      rw [except_throw_bind] at h
      exact absurd h (by simp)
    | some r0 =>
      obtain ⟨sfs, scks⟩ := r0
      simp only [hs] at h
      rw [show (pure (sfs, [VendorEvent.stubbed entry.1]) :
          Except ReconcileError (FS × List VendorEvent)) >>= _ = _ from pure_bind _ _] at h
      generalize hfs0 : sfs = entryFS at h
      cases h1 : excludes.lookup entry.1 with
      | none =>
        simp only [h1] at h ⊢
        rw [show (pure (entryFS, ([] : List VendorEvent)) :
            Except ReconcileError (FS × List VendorEvent)) >>= _ = _ from pure_bind _ _] at h
        cases h2 : excludes.lookup "*" with
        | none =>
          simp only [h2] at h ⊢
          rw [show (pure (entryFS, ([] : List VendorEvent)) :
              Except ReconcileError (FS × List VendorEvent)) >>= _ = _ from pure_bind _ _] at h
          rw [except_pure_eq_ok] at h
          injection h with h
          injection h with hfs hev
          simp [← hev]
        | some gex =>
          simp only [h2] at h ⊢
          cases h3 : process_excludes ext entryFS gex with
          | error e =>
            simp only [h3] at h
            rw [except_throw_bind] at h
            exact absurd h (by simp)
          | ok r =>
            obtain ⟨gfs, gocks, gw⟩ := r
            simp only [h3] at h
            rw [show (pure (gfs, [VendorEvent.pruned entry.1 gex]) :
                Except ReconcileError (FS × List VendorEvent)) >>= _ = _ from pure_bind _ _] at h
            rw [except_pure_eq_ok] at h
            injection h with h
            injection h with hfs hev
            simp [← hev]
      | some cex =>
        simp only [h1] at h ⊢
        cases h3 : process_excludes ext entryFS cex with
        | error e =>
          simp only [h3] at h
          rw [except_throw_bind] at h
          exact absurd h (by simp)
        | ok r =>
          obtain ⟨cfs, cocks, cw⟩ := r
          simp only [h3] at h
          rw [show (pure (cfs, [VendorEvent.pruned entry.1 cex]) :
              Except ReconcileError (FS × List VendorEvent)) >>= _ = _ from pure_bind _ _] at h
          cases h2 : excludes.lookup "*" with
          | none =>
            simp only [h2] at h ⊢
            rw [show (pure (cfs, ([] : List VendorEvent)) :
                Except ReconcileError (FS × List VendorEvent)) >>= _ = _ from pure_bind _ _] at h
            rw [except_pure_eq_ok] at h
            injection h with h
            injection h with hfs hev
            simp [← hev]
          | some gex =>
            simp only [h2] at h ⊢
            cases h4 : process_excludes ext cfs gex with
            | error e =>
              simp only [h4] at h
              rw [except_throw_bind] at h
              exact absurd h (by simp)
            | ok r2 =>
              obtain ⟨gfs, gocks, gw⟩ := r2
              simp only [h4] at h
              rw [show (pure (gfs, [VendorEvent.pruned entry.1 gex]) :
                  Except ReconcileError (FS × List VendorEvent)) >>= _ = _ from pure_bind _ _] at h
              rw [except_pure_eq_ok] at h
              injection h with h
              injection h with hfs hev
              simp [← hev]

theorem except_ok_bind {ε α β : Type} (a : α) (f : α → Except ε β) :
    ((Except.ok a : Except ε α) >>= f) = f a := rfl

/-- C5, amended: the reconciler processes exactly the snapshotted top-level
entries in order (their names are preserved); an entry whose name is not a
key of the directory-key map is stubbed; and then, for every entry — whether
or not it is in the map — the exclude rules under the exact package name and
under the wildcard name `*` are each applied as their own independent
PathPruner pass. -/
theorem C5_reconciler_amended (ext : ExternalCodecs) (dir : List (String × FS))
    (package_filenames : List String) (excludes : List (String × List String))
    (dir' : List (String × FS)) (events : List VendorEvent)
    (h : delete_unreferenced_packages ext dir package_filenames excludes = .ok (dir', events)) :
    dir'.map Prod.fst = dir.map Prod.fst ∧
      events = dir.flatMap (fun entry => reconcileEvents package_filenames excludes entry.1) := by
  induction dir generalizing dir' events with
  | nil =>
    unfold delete_unreferenced_packages at h
    rw [except_pure_eq_ok] at h
    injection h with h
    injection h with h1 h2
    simp [← h1, ← h2]
  | cons entry rest ih =>
    unfold delete_unreferenced_packages at h
    cases h1 : reconcileEntry ext package_filenames excludes entry with
    | error e =>
      rw [h1, except_error_bind] at h
      exact absurd h (by simp)
    | ok r1 =>
      obtain ⟨fs1, evs1⟩ := r1
      simp only [h1, except_ok_bind] at h
      cases h2 : delete_unreferenced_packages ext rest package_filenames excludes with
      | error e =>
        simp [h2, except_error_bind] at h
      | ok r2 =>
        obtain ⟨rest1, evs2⟩ := r2
        simp only [h2, except_ok_bind, except_pure_eq_ok, Except.ok.injEq,
          Prod.mk.injEq] at h
        obtain ⟨hdir, hev⟩ := h
        obtain ⟨ihdir, ihev⟩ := ih rest1 evs2 h2
        have hevs1 := reconcileEntry_events ext package_filenames excludes entry fs1 evs1 h1
        constructor
        · rw [← hdir]
          simp [ihdir]
        · rw [← hev, hevs1, ihev]
          simp [List.flatMap_cons]

/-- C5, counterexample: with entry `foo` absent from the directory-key map
and a wildcard exclude rule present, the reconciler stubs `foo` and then ALSO
invokes a PathPruner pass on the freshly stubbed entry; the claim's "only for
entries present in the map ... invokes PathPruner" is therefore false. -/
theorem C5_counterexample_prunes_stubbed_entry :
    delete_unreferenced_packages testCodecs [("foo", stubInputFS)] [] [("*", ["src"])] =
        .ok ([("foo", [(CARGO_TOML, []), (CARGO_CHECKSUM, [])])],
          [.stubbed "foo", .pruned "foo" ["src"]]) ∧
      "foo" ∉ ([] : List String) ∧
      VendorEvent.pruned "foo" ["src"] ∈
        [VendorEvent.stubbed "foo", VendorEvent.pruned "foo" ["src"]] :=
  ⟨rfl, by simp, by simp⟩

/-- C5, witness for the amended theorem at the stubbed-and-pruned entry. -/
theorem C5_reconciler_witness :
    delete_unreferenced_packages testCodecs [("foo", stubInputFS)] [] [("*", ["src"])] =
        .ok ([("foo", [(CARGO_TOML, []), (CARGO_CHECKSUM, [])])],
          [.stubbed "foo", .pruned "foo" ["src"]]) ∧
      ([("foo", [(CARGO_TOML, ([] : ByteSeq)), (CARGO_CHECKSUM, [])])].map Prod.fst =
          [("foo", stubInputFS)].map Prod.fst ∧
        [VendorEvent.stubbed "foo", VendorEvent.pruned "foo" ["src"]] =
          [("foo", stubInputFS)].flatMap
            (fun entry => reconcileEvents [] [("*", ["src"])] entry.1)) :=
  ⟨rfl,
    C5_reconciler_amended testCodecs [("foo", stubInputFS)] [] [("*", ["src"])]
      [("foo", [(CARGO_TOML, []), (CARGO_CHECKSUM, [])])]
      [.stubbed "foo", .pruned "foo" ["src"]] rfl⟩

/-! ## ArchiveBuilder ordering lemmas (claim C7) -/

theorem charListLt_irrefl : ∀ a : List Char, charListLt a a = false
  | [] => rfl
  | a :: as => by
    simp [charListLt, charListLt_irrefl as]

theorem charListLt_asymm : ∀ a b : List Char,
    charListLt a b = true → charListLt b a = true → False
  | [], [], h1, _ => by simp [charListLt] at h1
  | [], _ :: _, _, h2 => by simp [charListLt] at h2
  | _ :: _, [], h1, _ => by simp [charListLt] at h1
  | a :: as, b :: bs, h1, h2 => by
    simp only [charListLt] at h1 h2
    by_cases hab : a < b
    · by_cases hba : b < a
      · exact absurd hba (lt_asymm hab)
      · rw [if_neg hba] at h2
        by_cases hbae : b = a
        · subst hbae
          exact absurd hab (lt_irrefl b)
        · rw [if_neg hbae] at h2
          exact absurd h2 (by simp)
    · rw [if_neg hab] at h1
      by_cases heq : a = b
      · subst heq
        rw [if_pos rfl] at h1
        rw [if_neg (lt_irrefl a), if_pos rfl] at h2
        exact charListLt_asymm as bs h1 h2
      · rw [if_neg heq] at h1
        exact absurd h1 (by simp)

theorem charListLt_trans : ∀ a b c : List Char,
    charListLt a b = true → charListLt b c = true → charListLt a c = true
  | [], [], _, h1, _ => by simp [charListLt] at h1
  | [], _ :: _, [], _, h2 => by simp [charListLt] at h2
  | [], _ :: _, _ :: _, _, _ => by simp [charListLt]
  | _ :: _, [], _, h1, _ => by simp [charListLt] at h1
  | _ :: _, _ :: _, [], _, h2 => by simp [charListLt] at h2
  | a :: as, b :: bs, c :: cs, h1, h2 => by
    simp only [charListLt] at h1 h2 ⊢
    by_cases hab : a < b
    · by_cases hbc : b < c
      · rw [if_pos (lt_trans hab hbc)]
      · rw [if_neg hbc] at h2
        by_cases hbc2 : b = c
        · subst hbc2
          rw [if_pos hab]
        · rw [if_neg hbc2] at h2
          exact absurd h2 (by simp)
    · rw [if_neg hab] at h1
      by_cases hab2 : a = b
      · subst hab2
        rw [if_pos rfl] at h1
        by_cases hbc : a < c
        · rw [if_pos hbc]
        · rw [if_neg hbc] at h2 ⊢
          by_cases hbc2 : a = c
          · subst hbc2
            rw [if_pos rfl] at h2 ⊢
            exact charListLt_trans as bs cs h1 h2
          · rw [if_neg hbc2] at h2
            exact absurd h2 (by simp)
      · rw [if_neg hab2] at h1
        exact absurd h1 (by simp)

theorem charListLt_connex : ∀ a b : List Char,
    charListLt a b = false → a ≠ b → charListLt b a = true
  | [], [], _, h2 => absurd rfl h2
  | [], _ :: _, h1, _ => by simp [charListLt] at h1
  | _ :: _, [], _, _ => by simp [charListLt]
  | a :: as, b :: bs, h1, h2 => by
    simp only [charListLt] at h1 ⊢
    by_cases hab : a < b
    · rw [if_pos hab] at h1
      exact absurd h1 (by simp)
    · rw [if_neg hab] at h1
      by_cases heq : a = b
      · subst heq
        rw [if_pos rfl] at h1
        rw [if_neg (lt_irrefl a), if_pos rfl]
        refine charListLt_connex as bs h1 ?_
        intro hcon
        exact h2 (by rw [hcon])
      · have hba : b < a := by
          rcases lt_trichotomy a b with h | h | h
          · exact absurd h hab
          · exact absurd h heq
          · exact h
        rw [if_pos hba]

theorem string_ext (a b : String) (h : a.data = b.data) : a = b := by
  cases a
  cases b
  exact congrArg String.mk (by simpa using h)

theorem strLt_irrefl (a : String) : strLt a a = false :=
  charListLt_irrefl a.data

theorem strLt_asymm (a b : String) (h1 : strLt a b = true) (h2 : strLt b a = true) : False :=
  charListLt_asymm a.data b.data h1 h2

theorem strLt_trans (a b c : String) (h1 : strLt a b = true) (h2 : strLt b c = true) :
    strLt a c = true :=
  charListLt_trans a.data b.data c.data h1 h2

theorem strLt_connex (a b : String) (h1 : strLt a b = false) (h2 : a ≠ b) :
    strLt b a = true :=
  charListLt_connex a.data b.data h1 (fun hd => h2 (string_ext a b hd))

theorem pathKeyLt_asymm : ∀ a b : List String,
    pathKeyLt a b = true → pathKeyLt b a = true → False
  | [], [], h1, _ => by simp [pathKeyLt] at h1
  | [], _ :: _, _, h2 => by simp [pathKeyLt] at h2
  | _ :: _, [], h1, _ => by simp [pathKeyLt] at h1
  | a :: as, b :: bs, h1, h2 => by
    simp only [pathKeyLt] at h1 h2
    by_cases hab : strLt a b = true
    · by_cases hba : strLt b a = true
      · exact strLt_asymm a b hab hba
      · rw [if_neg hba] at h2
        by_cases hbae : b = a
        · subst hbae
          rw [strLt_irrefl b] at hab
          exact absurd hab (by simp)
        · rw [if_neg hbae] at h2
          exact absurd h2 (by simp)
    · rw [if_neg hab] at h1
      by_cases heq : a = b
      · subst heq
        rw [if_pos rfl] at h1
        have hirr : ¬ (strLt a a = true) := by simp [strLt_irrefl a]
        rw [if_neg hirr, if_pos rfl] at h2
        exact pathKeyLt_asymm as bs h1 h2
      · rw [if_neg heq] at h1
        exact absurd h1 (by simp)

theorem pathKeyLt_trans : ∀ a b c : List String,
    pathKeyLt a b = true → pathKeyLt b c = true → pathKeyLt a c = true
  | [], [], _, h1, _ => by simp [pathKeyLt] at h1
  | [], _ :: _, [], _, h2 => by simp [pathKeyLt] at h2
  | [], _ :: _, _ :: _, _, _ => by simp [pathKeyLt]
  | _ :: _, [], _, h1, _ => by simp [pathKeyLt] at h1
  | _ :: _, _ :: _, [], _, h2 => by simp [pathKeyLt] at h2
  | a :: as, b :: bs, c :: cs, h1, h2 => by
    simp only [pathKeyLt] at h1 h2 ⊢
    by_cases hab : strLt a b = true
    · by_cases hbc : strLt b c = true
      · rw [if_pos (strLt_trans a b c hab hbc)]
      · rw [if_neg hbc] at h2
        by_cases hbc2 : b = c
        · subst hbc2
          rw [if_pos hab]
        · rw [if_neg hbc2] at h2
          exact absurd h2 (by simp)
    · rw [if_neg hab] at h1
      by_cases hab2 : a = b
      · subst hab2
        rw [if_pos rfl] at h1
        by_cases hbc : strLt a c = true
        · rw [if_pos hbc]
        · rw [if_neg hbc] at h2 ⊢
          by_cases hbc2 : a = c
          · subst hbc2
            rw [if_pos rfl] at h2 ⊢
            exact pathKeyLt_trans as bs cs h1 h2
          · rw [if_neg hbc2] at h2
            exact absurd h2 (by simp)
      · rw [if_neg hab2] at h1
        exact absurd h1 (by simp)

theorem pathKeyLt_connex : ∀ a b : List String,
    pathKeyLt a b = false → a ≠ b → pathKeyLt b a = true
  | [], [], _, h2 => absurd rfl h2
  | [], _ :: _, h1, _ => by simp [pathKeyLt] at h1
  | _ :: _, [], _, _ => by simp [pathKeyLt]
  | a :: as, b :: bs, h1, h2 => by
    simp only [pathKeyLt] at h1 ⊢
    by_cases hab : strLt a b = true
    · rw [if_pos hab] at h1
      exact absurd h1 (by simp)
    · rw [if_neg hab] at h1
      by_cases heq : a = b
      · subst heq
        rw [if_pos rfl] at h1
        have hirr : ¬ (strLt a a = true) := by simp [strLt_irrefl a]
        rw [if_neg hirr, if_pos rfl]
        refine pathKeyLt_connex as bs h1 ?_
        intro hcon
        exact h2 (by rw [hcon])
      · have hba : strLt b a = true :=
          strLt_connex a b (by simpa using hab) heq
        rw [if_pos hba]

theorem pathKeyLe_total (a b : List String) : pathKeyLe a b = true ∨ pathKeyLe b a = true := by
  by_cases hlt : pathKeyLt a b = true
  · left
    simp [pathKeyLe, hlt]
  · by_cases heq : a = b
    · left
      simp [pathKeyLe, heq]
    · right
      have hlt' : pathKeyLt a b = false := by simpa using hlt
      have := pathKeyLt_connex a b hlt' heq
      simp [pathKeyLe, this]

theorem pathKeyLe_trans (a b c : List String) (h1 : pathKeyLe a b = true)
    (h2 : pathKeyLe b c = true) : pathKeyLe a c = true := by
  simp only [pathKeyLe, Bool.or_eq_true, beq_iff_eq] at h1 h2 ⊢
  rcases h1 with h1 | h1
  · rcases h2 with h2 | h2
    · exact Or.inl (pathKeyLt_trans a b c h1 h2)
    · subst h2
      exact Or.inl h1
  · subst h1
    exact h2

theorem insertByPath_perm (e : List String × FsNode) (l : DirTree) :
    (insertByPath e l).Perm (e :: l) := by
  induction l with
  | nil => exact List.Perm.refl _
  | cons f rest ih =>
    by_cases h : pathKeyLe e.1 f.1 = true
    · simp [insertByPath, h]
    · simp only [insertByPath, if_neg h]
      exact (ih.cons f).trans (List.Perm.swap e f rest)

theorem insertByPath_sorted (e : List String × FsNode) (l : DirTree)
    (h : l.Pairwise (fun a b => pathKeyLe a.1 b.1 = true)) :
    (insertByPath e l).Pairwise (fun a b => pathKeyLe a.1 b.1 = true) := by
  induction l with
  | nil => simp [insertByPath]
  | cons f rest ih =>
    rcases List.pairwise_cons.mp h with ⟨hf, hrest⟩
    by_cases hle : pathKeyLe e.1 f.1 = true
    · simp only [insertByPath, if_pos hle]
      refine List.pairwise_cons.mpr ⟨?_, h⟩
      intro b hb
      rcases List.mem_cons.mp hb with hb | hb
      · exact hb ▸ hle
      · exact pathKeyLe_trans _ _ _ hle (hf b hb)
    · simp only [insertByPath, if_neg hle]
      refine List.pairwise_cons.mpr ⟨?_, ih hrest⟩
      intro b hb
      have hb' : b ∈ e :: rest := (insertByPath_perm e rest).subset hb
      rcases List.mem_cons.mp hb' with hb' | hb'
      · subst hb'
        rcases pathKeyLe_total b.1 f.1 with htot | htot
        · exact absurd htot hle
        · exact htot
      · exact hf b hb'

theorem sortByPath_perm (l : DirTree) : (sortByPath l).Perm l := by
  induction l with
  | nil => exact List.Perm.refl _
  | cons e rest ih =>
    exact (insertByPath_perm e (sortByPath rest)).trans (ih.cons e)

theorem sortByPath_sorted (l : DirTree) :
    (sortByPath l).Pairwise (fun a b => pathKeyLe a.1 b.1 = true) := by
  induction l with
  | nil => simp [sortByPath]
  | cons e rest ih => exact insertByPath_sorted e _ ih

theorem sortByPath_strict_sorted (l : DirTree) (hnd : (l.map Prod.fst).Nodup) :
    (sortByPath l).Pairwise (fun a b => pathKeyLt a.1 b.1 = true) := by
  have hs := sortByPath_sorted l
  have hndk : ((sortByPath l).map Prod.fst).Nodup := by
    have hpm : ((sortByPath l).map Prod.fst).Perm (l.map Prod.fst) :=
      (sortByPath_perm l).map Prod.fst
    exact hpm.nodup_iff.mpr hnd
  have hpw : (sortByPath l).Pairwise (fun a b => a.1 ≠ b.1) := by
    rw [List.Nodup, List.pairwise_map] at hndk
    exact hndk
  refine (hs.and hpw).imp ?_
  intro a b hab
  obtain ⟨hle, hne⟩ := hab
  simp only [pathKeyLe, Bool.or_eq_true, beq_iff_eq] at hle
  rcases hle with hle | hle
  · exact hle
  · exact absurd hle hne

theorem sortByPath_eq_of_perm (l1 l2 : DirTree) (hperm : l1.Perm l2)
    (hnd : (l1.map Prod.fst).Nodup) : sortByPath l1 = sortByPath l2 := by
  have hnd2 : (l2.map Prod.fst).Nodup := ((hperm.map Prod.fst).nodup_iff).mp hnd
  have hp : (sortByPath l1).Perm (sortByPath l2) :=
    (sortByPath_perm l1).trans (hperm.trans (sortByPath_perm l2).symm)
  haveI : IsAntisymm (List String × FsNode) (fun a b => pathKeyLt a.1 b.1 = true) :=
    ⟨fun a b h1 h2 => absurd (pathKeyLt_asymm a.1 b.1 h1 h2) not_false⟩
  exact List.eq_of_perm_of_sorted hp (sortByPath_strict_sorted l1 hnd)
    (sortByPath_strict_sorted l2 hnd2)

theorem walk_entries_headers (ts : Nat) (pfx : List String) (t : DirTree) :
    ∀ e ∈ walk_entries ts pfx t, e.mtime = ts ∧ e.uid = 0 ∧ e.gid = 0 := by
  intro e he
  obtain ⟨a, ha, hae⟩ := List.mem_filterMap.mp he
  unfold tarEntryFor at hae
  cases h2 : a.2 with
  | file c =>
    rw [h2] at hae
    injection hae with hae
    rw [← hae]
    exact ⟨rfl, rfl, rfl⟩
  | directory =>
    rw [h2] at hae
    injection hae with hae
    rw [← hae]
    exact ⟨rfl, rfl, rfl⟩
  | symlink tgt =>
    rw [h2] at hae
    injection hae with hae
    rw [← hae]
    exact ⟨rfl, rfl, rfl⟩
  | special =>
    rw [h2] at hae
    exact absurd hae (by simp)

/-- C7, counterexample: the visit order is NOT full-path lexicographic on the
rendered archive paths — `./foo/x` is visited before `./foo-1.2`, yet
`./foo-1.2` is the lexicographically smaller string (`-` sorts before `/`).
The order actually used is depth-first with siblings sorted by file name. -/
theorem C7_counterexample_visit_order :
    (walk_entries 0 [] sampleTree).map TarEntry.path =
        ["./", "./foo", "./foo/x", "./foo-1.2"] ∧
      ("./foo-1.2" : String) < "./foo/x" := by
  constructor
  · rfl
  · rw [String.lt_iff_toList_lt]
    decide

/-- C7, amended: two `generate_tar_from` runs over the same directory tree
(the same path/node entries, in any filesystem enumeration order) with the
same timestamp source produce byte-identical output; entries are visited in
component-wise lexicographic path order — depth-first with siblings sorted by
file name, which is deterministic but not always full-path lexicographic
order on the rendered path strings; ownership is normalized to uid/gid 0 and
every entry carries the one shared timestamp; and the gzip encoding uses the
fixed embedded timestamp field 0 and the fixed compression level 6. -/
theorem C7_archive_determinism_amended (ac : ArchiveCodecs) (compress : Compression)
    (ts : Nat) (pfx : List String) (t1 t2 : DirTree)
    (hperm : t1.Perm t2) (hnd : (t1.map Prod.fst).Nodup) :
    generate_tar_from ac compress ts pfx t1 = generate_tar_from ac compress ts pfx t2 ∧
      (∀ e ∈ walk_entries ts pfx t1, e.mtime = ts ∧ e.uid = 0 ∧ e.gid = 0) ∧
      (sortByPath t1).Pairwise (fun a b => pathKeyLe a.1 b.1 = true) ∧
      GZIP_MTIME = 0 ∧ GZIP_COMPRESSION = 6 ∧
      generate_tar_from ac .gzip ts pfx t1 =
        ac.gzipCompress GZIP_MTIME GZIP_COMPRESSION
          (ac.tarSerialize (walk_entries ts pfx t1)) := by
  have hsort := sortByPath_eq_of_perm t1 t2 hperm hnd
  refine ⟨?_, walk_entries_headers ts pfx t1, sortByPath_sorted t1, rfl, rfl, rfl⟩
  unfold generate_tar_from walk_entries
  rw [hsort]

/-- C7, witness: the amended theorem at the concrete tree and its shuffled
enumeration, with the trivial codecs, timestamp 7, and gzip encoding. -/
theorem C7_archive_determinism_witness :
    sampleTree.Perm sampleTreeShuffled ∧ (sampleTree.map Prod.fst).Nodup ∧
      (generate_tar_from testArchiveCodecs .gzip 7 [] sampleTree =
          generate_tar_from testArchiveCodecs .gzip 7 [] sampleTreeShuffled ∧
        (∀ e ∈ walk_entries 7 [] sampleTree, e.mtime = 7 ∧ e.uid = 0 ∧ e.gid = 0) ∧
        (sortByPath sampleTree).Pairwise (fun a b => pathKeyLe a.1 b.1 = true) ∧
        GZIP_MTIME = 0 ∧ GZIP_COMPRESSION = 6 ∧
        generate_tar_from testArchiveCodecs .gzip 7 [] sampleTree =
          testArchiveCodecs.gzipCompress GZIP_MTIME GZIP_COMPRESSION
            (testArchiveCodecs.tarSerialize (walk_entries 7 [] sampleTree))) :=
  ⟨by decide, by decide,
    C7_archive_determinism_amended testArchiveCodecs .gzip 7 [] sampleTree
      sampleTreeShuffled (by decide) (by decide)⟩

end VendorFilterer
